import Mathlib

/-!
Shallow embedding of the rate-aggregation core of the `jp-sub-speechrate`
repository (scripts/collect_show_rates.py and scripts/visualize_rates.py).

Python floats are modelled as `ℚ`, Python ints as `ℤ`, subtitle records as
`(start_ms, end_ms, text)` triples.  The external collaborators
(`strip_nonspoken` and the `KanaReader` phonetics object) are abstracted as
function parameters, exactly as the scripts treat them (opaque black boxes).
`Python sorted` is modelled with `List.insertionSort`, which computes a
sorted permutation; every statement proved here only depends on that.
-/

/-- A timed-text record `(start_ms, end_ms, text)` as produced by the parser. -/
abbrev Item := ℤ × ℤ × String

/-- The phonological collaborator `KanaReader` (external interface, spec §6):
`to_kana(text, strip_sokuon) -> reading` and the three unit counters. -/
structure KanaReader where
  to_kana : String → Bool → String
  count_mora : String → ℤ
  count_kana : String → ℤ
  count_syllable : String → ℤ

/-- The unit dispatch `if unit == "mora": ... elif unit == "syllable": ... else ...`
shared verbatim by all three extraction loops. -/
def count_of (reader : KanaReader) (unit : String) (reading : String) : ℤ :=
  if unit == "mora" then reader.count_mora reading
  else if unit == "syllable" then reader.count_syllable reading
  else reader.count_kana reading

/-- One surviving line in `visualize_rates._line_entries`:
`(start, end, count, rate, duration_ms / 1000.0)`. -/
structure VEntry where
  start : ℤ
  stop : ℤ
  count : ℤ
  rate : ℚ
  dur : ℚ
deriving DecidableEq

/-- One surviving line in `collect_show_rates._analyze_items`:
`(start, end, count, rate)`. -/
structure CEntry where
  start : ℤ
  stop : ℤ
  count : ℤ
  rate : ℚ
deriving DecidableEq

/-- Python's `not text.strip()` test: true exactly when every character of
the text is whitespace (so stripping leaves the empty string). -/
def blank (text : String) : Bool := text.data.all Char.isWhitespace

/-- Per-record filtering and rate computation.  This loop body appears three
times in the sources with identical filters and arithmetic
(collect_show_rates lines 33-53 and 79-100, visualize_rates lines 112-132);
it is embedded once and specialised below.  `strip_nonspoken` is the external
normalizer. -/
def line_entry? (strip_nonspoken : String → String) (reader : KanaReader)
    (unit : String) (it : Item) : Option VEntry :=
  let (start, stop, text) := it
  if blank text = true then none
  else
    let text := strip_nonspoken text
    if blank text = true then none
    else
      let duration_ms := stop - start
      if duration_ms ≤ 0 then none
      else
        let strip_sokuon := unit == "kana"
        let reading := reader.to_kana text strip_sokuon
        let count := count_of reader unit reading
        if count ≤ 0 then none
        else
          let rate : ℚ := (count : ℚ) / ((duration_ms : ℚ) / 1000 / 60)
          some ⟨start, stop, count, rate, (duration_ms : ℚ) / 1000⟩

namespace collect

/-- `_percentile` from collect_show_rates.py lines 16-28 (the identical copy in
visualize_rates.py lines 21-33 is this same function).  Python `int(k)`
truncates toward zero; `k ≥ 0` on the reachable branch, so it is the floor. -/
def percentile (sorted_vals : List ℚ) (p : ℚ) : ℚ :=
  if sorted_vals = [] then 0
  else if p ≤ 0 then sorted_vals.headI
  else if 100 ≤ p then sorted_vals.getLastD 0
  else
    let n := sorted_vals.length
    let k : ℚ := ((n : ℚ) - 1) * (p / 100)
    let f : ℕ := Int.toNat ⌊k⌋
    let c : ℕ := min (f + 1) (n - 1)
    if f = c then sorted_vals.getD f 0
    else sorted_vals.getD f 0 * ((c : ℚ) - k) + sorted_vals.getD c 0 * (k - (f : ℚ))

/-- The entry-collection loop of `_analyze_items` (lines 32-53). -/
def analyze_entries (strip_nonspoken : String → String) (reader : KanaReader)
    (items : List Item) (unit : String) : List CEntry :=
  items.filterMap fun it =>
    (line_entry? strip_nonspoken reader unit it).map fun e =>
      ⟨e.start, e.stop, e.count, e.rate⟩

/-- The IQR-trimming block of `_analyze_items` (lines 55-63). -/
def trim_entries (trim_outliers : Bool) (entries : List CEntry) : List CEntry :=
  if trim_outliers = true ∧ entries ≠ [] then
    let rates := List.insertionSort (· ≤ ·) (entries.map CEntry.rate)
    let q1 := percentile rates 25
    let q3 := percentile rates 75
    let iqr := q3 - q1
    if 0 < iqr then
      let lower := q1 - 1.5 * iqr
      let upper := q3 + 1.5 * iqr
      entries.filter fun e => decide (lower ≤ e.rate ∧ e.rate ≤ upper)
    else entries
  else entries

end collect

/-- Modelled from the spec: `merge_intervals` lives in the
`jp_sub_speechrate.parsing` module, which is not among the provided source
files.  Spec §4.1: scan the start-sorted intervals keeping an open interval
`(cs, ce)`; a next interval with `s ≤ ce` extends `ce := max ce e`, otherwise
the open interval is emitted and a new one opened; touching intervals merge. -/
def merge_go (cur : ℤ × ℤ) : List (ℤ × ℤ) → List (ℤ × ℤ)
  | [] => [cur]
  | (s, e) :: rest =>
    if s ≤ cur.2 then merge_go (cur.1, max cur.2 e) rest
    else cur :: merge_go (s, e) rest

/-- Modelled from the spec: `merge_intervals` (spec §4.1) — sort by start
ascending, then scan with `merge_go`; empty input yields empty output. -/
def merge_intervals (l : List (ℤ × ℤ)) : List (ℤ × ℤ) :=
  match List.insertionSort (fun a b => a.1 ≤ b.1) l with
  | [] => []
  | x :: xs => merge_go x xs

namespace collect

/-- The aggregation tail of `_analyze_items` (lines 65-74): total units,
non-overlapping minutes from merged intervals, guarded rate. -/
def finish_entries (entries : List CEntry) : ℤ × ℚ × ℚ :=
  if entries = [] then (0, 0, 0)
  else
    let total_units := (entries.map CEntry.count).sum
    let intervals := entries.map fun e => (e.start, e.stop)
    let merged := merge_intervals intervals
    let total_ms : ℤ := (merged.map fun i => i.2 - i.1).sum
    let minutes : ℚ := if 0 < total_ms then (total_ms : ℚ) / 1000 / 60 else 0
    let rate : ℚ := if 0 < minutes then (total_units : ℚ) / minutes else 0
    (total_units, minutes, rate)

/-- `_analyze_items` from collect_show_rates.py lines 31-74. -/
def analyze_items (strip_nonspoken : String → String) (reader : KanaReader)
    (items : List Item) (unit : String) (trim_outliers : Bool) : ℤ × ℚ × ℚ :=
  finish_entries (trim_entries trim_outliers
    (analyze_entries strip_nonspoken reader items unit))

/-- `_line_rates` from collect_show_rates.py lines 77-101: the same per-record
pipeline, emitting `(rate, duration_s)` pairs. -/
def line_rates (strip_nonspoken : String → String) (reader : KanaReader)
    (items : List Item) (unit : String) : List (ℚ × ℚ) :=
  (items.filterMap (line_entry? strip_nonspoken reader unit)).map fun e =>
    (e.rate, e.dur)

/-- The for-loop of `_weighted_median` (lines 113-117): accumulate weight,
return the first value whose cumulative weight reaches the target; if the loop
finishes, return `pairs[-1][0]` (the `last` argument). -/
def wmGo (target last : ℚ) : ℚ → List (ℚ × ℚ) → ℚ
  | _acc, [] => last
  | acc, (v, w) :: rest => if target ≤ acc + w then v else wmGo target last (acc + w) rest

/-- `_weighted_median` from collect_show_rates.py lines 104-117. -/
def weighted_median (pairs : List (ℚ × ℚ)) : ℚ :=
  if pairs = [] then 0
  else
    let ps := List.insertionSort (fun a b => a.1 ≤ b.1) pairs
    let total_w := (ps.map Prod.snd).sum
    if total_w ≤ 0 then 0
    else wmGo (total_w / 2) ((ps.getLastD (0, 0)).1) 0 ps

/-- The show-level line-rate fence from `main` (lines 185-193): applied only
when trimming is on and at least 4 line observations exist. -/
def show_line_filter (trim_outliers : Bool) (line_rates : List (ℚ × ℚ)) :
    List (ℚ × ℚ) :=
  if trim_outliers = true ∧ 4 ≤ line_rates.length then
    let rates_only := List.insertionSort (· ≤ ·) (line_rates.map Prod.fst)
    let q1 := percentile rates_only 25
    let q3 := percentile rates_only 75
    let iqr := q3 - q1
    if 0 < iqr then
      let lower := q1 - 1.5 * iqr
      let upper := q3 + 1.5 * iqr
      line_rates.filter fun p => decide (lower ≤ p.1 ∧ p.1 ≤ upper)
    else line_rates
  else line_rates

/-- The per-show accumulation of `main` (lines 170-182): fold the per-episode
`_analyze_items` results, summing units and minutes. -/
def show_totals (strip_nonspoken : String → String) (reader : KanaReader)
    (unit : String) (trim_outliers : Bool) (episodes : List (List Item)) :
    ℤ × ℚ :=
  episodes.foldl (fun acc items =>
    let r := analyze_items strip_nonspoken reader items unit trim_outliers
    (acc.1 + r.1, acc.2 + r.2.1)) (0, 0)

/-- The `(total_units, total_minutes, rate)` triple printed per show by `main`
(lines 183-195); the source computes the rate only when `total_minutes > 0`
(otherwise no row is emitted), which the guard mirrors. -/
def show_aggregate (strip_nonspoken : String → String) (reader : KanaReader)
    (unit : String) (trim_outliers : Bool) (episodes : List (List Item)) :
    ℤ × ℚ × ℚ :=
  let t := show_totals strip_nonspoken reader unit trim_outliers episodes
  (t.1, t.2, if 0 < t.2 then (t.1 : ℚ) / t.2 else 0)

end collect

namespace visualize

/-- `_percentile` from visualize_rates.py lines 21-33 is byte-identical to the
collect copy; it is shared. -/
def percentile : List ℚ → ℚ → ℚ := collect.percentile

/-- `_trim_iqr` from visualize_rates.py lines 36-47.  The source returns a
Python `set` of the surviving values, used downstream only for membership
tests; it is embedded as a `Finset ℚ`. -/
def trim_iqr (values : List ℚ) : Finset ℚ :=
  if values.length < 4 then values.toFinset
  else
    let sorted_vals := List.insertionSort (· ≤ ·) values
    let q1 := percentile sorted_vals 25
    let q3 := percentile sorted_vals 75
    let iqr := q3 - q1
    if iqr ≤ 0 then values.toFinset
    else
      let lower := q1 - 1.5 * iqr
      let upper := q3 + 1.5 * iqr
      (values.filter fun v => decide (lower ≤ v ∧ v ≤ upper)).toFinset

/-- `_weighted_mean` from visualize_rates.py lines 50-58.  A Python `weights`
argument that is `None` or the empty list is falsy, hence the `Option`
modelling with `weights.getD [] = []` for `if not weights`. -/
def weighted_mean (values : List ℚ) (weights : Option (List ℚ)) : ℚ :=
  if values = [] then 0
  else if weights.getD [] = [] then values.sum / (values.length : ℚ)
  else
    let ws := weights.getD []
    let total_w := ws.sum
    if total_w ≤ 0 then 0
    else ((values.zip ws).map fun p => p.1 * p.2).sum / total_w

/-- `_weighted_median` from visualize_rates.py lines 61-80; the weighted branch
is the same loop as collect_show_rates' `_weighted_median` (`collect.wmGo`). -/
def weighted_median (values : List ℚ) (weights : Option (List ℚ)) : ℚ :=
  if values = [] then 0
  else if weights.getD [] = [] then
    let values := List.insertionSort (· ≤ ·) values
    let mid := values.length / 2
    if values.length % 2 = 1 then values.getD mid 0
    else (values.getD (mid - 1) 0 + values.getD mid 0) / 2
  else
    let pairs := List.insertionSort (fun a b => a.1 ≤ b.1)
      (values.zip (weights.getD []))
    let total_w := (pairs.map Prod.snd).sum
    if total_w ≤ 0 then 0
    else collect.wmGo (total_w / 2) ((pairs.getLastD (0, 0)).1) 0 pairs

/-- Python `min(values)` for a nonempty list. -/
def pymin (values : List ℚ) : ℚ :=
  match values with
  | [] => 0
  | v :: vs => vs.foldl min v

/-- Python `max(values)` for a nonempty list. -/
def pymax (values : List ℚ) : ℚ :=
  match values with
  | [] => 0
  | v :: vs => vs.foldl max v

/-- The bin index of `_histogram_mode` (lines 96-98 resp. 102-104):
`idx = int((v - vmin) / width)`, clamped to the last bin.  `v ≥ vmin` on every
reachable call, so Python `int` truncation is the floor. -/
def bin_index (vmin width : ℚ) (bins : ℕ) (v : ℚ) : ℕ :=
  let idx := Int.toNat ⌊(v - vmin) / width⌋
  if bins ≤ idx then bins - 1 else idx

/-- The `(value, weight)` pairs `_histogram_mode` accumulates over: the zipped
lists when truthy weights are given, otherwise each value with unit weight
(the `counts[idx] += 1.0` loop of lines 101-105). -/
def hist_pairs (values : List ℚ) (weights : Option (List ℚ)) : List (ℚ × ℚ) :=
  match weights with
  | some ws => if ws = [] then values.map fun v => (v, (1 : ℚ)) else values.zip ws
  | none => values.map fun v => (v, (1 : ℚ))

/-- `_histogram_mode` from visualize_rates.py lines 83-107.  The
`counts[idx] += w` loop is a fold updating a length-`bins` list; Python
`max(range(bins), key=...)` keeps the first index among ties, i.e. it replaces
the current best only on a strictly larger key. -/
def histogram_mode (values : List ℚ) (weights : Option (List ℚ)) (bins : ℕ) : ℚ :=
  if values = [] then 0
  else
    let vmin := pymin values
    let vmax := pymax values
    if vmin = vmax then vmin
    else
      let width := (vmax - vmin) / (bins : ℚ)
      if width ≤ 0 then vmin
      else
        let counts := (hist_pairs values weights).foldl (fun cs p =>
          let idx := bin_index vmin width bins p.1
          cs.set idx (cs.getD idx 0 + p.2)) (List.replicate bins 0)
        let max_idx := (List.range bins).foldl (fun best i =>
          if counts.getD best 0 < counts.getD i 0 then i else best) 0
        vmin + ((max_idx : ℚ) + 1 / 2) * width

/-- `_line_entries` from visualize_rates.py lines 110-133. -/
def line_entries (strip_nonspoken : String → String) (reader : KanaReader)
    (items : List Item) (unit : String) : List VEntry :=
  items.filterMap (line_entry? strip_nonspoken reader unit)

/-- The trimming block of `_episode_rate` (lines 141-149). -/
def trim_ventries (trim_outliers : Bool) (entries : List VEntry) : List VEntry :=
  if trim_outliers = true then
    let rates := List.insertionSort (· ≤ ·) (entries.map VEntry.rate)
    let q1 := percentile rates 25
    let q3 := percentile rates 75
    let iqr := q3 - q1
    if 0 < iqr then
      let lower := q1 - 1.5 * iqr
      let upper := q3 + 1.5 * iqr
      entries.filter fun e => decide (lower ≤ e.rate ∧ e.rate ≤ upper)
    else entries
  else entries

/-- `_episode_rate` from visualize_rates.py lines 136-157. -/
def episode_rate (strip_nonspoken : String → String) (reader : KanaReader)
    (items : List Item) (unit : String) (trim_outliers : Bool) : ℚ :=
  let entries := line_entries strip_nonspoken reader items unit
  if entries = [] then 0
  else
    let entries := trim_ventries trim_outliers entries
    if entries = [] then 0
    else
      let total := (entries.map VEntry.count).sum
      let merged := merge_intervals (entries.map fun e => (e.start, e.stop))
      let total_ms : ℤ := (merged.map fun i => i.2 - i.1).sum
      let minutes : ℚ := if 0 < total_ms then (total_ms : ℚ) / 1000 / 60 else 0
      if 0 < minutes then (total : ℚ) / minutes else 0

/-- `_line_rates` from visualize_rates.py lines 160-161. -/
def line_rates (strip_nonspoken : String → String) (reader : KanaReader)
    (items : List Item) (unit : String) : List (ℚ × ℚ) :=
  (line_entries strip_nonspoken reader items unit).map fun e => (e.rate, e.dur)

end visualize

/-- Claim C2: for line rates `[10, 12, 11, 100]` with uniform weights
`[1, 1, 1, 1]` the interpolated 25th percentile is `10.75`, the show-level IQR
trim removes exactly `100`, and the weighted median of the survivors is `11`. -/
theorem C2_concrete_scenario :
    collect.percentile (List.insertionSort (· ≤ ·) [10, 12, 11, 100]) 25 = 10.75
    ∧ collect.show_line_filter true [(10, 1), (12, 1), (11, 1), (100, 1)]
        = [(10, 1), (12, 1), (11, 1)]
    ∧ collect.weighted_median
        (collect.show_line_filter true [(10, 1), (12, 1), (11, 1), (100, 1)]) = 11 := by
  have hsort : List.insertionSort (· ≤ ·) [(10 : ℚ), 12, 11, 100] = [10, 11, 12, 100] := by
    norm_num [List.insertionSort, List.orderedInsert]
  have hq1 : collect.percentile [(10 : ℚ), 11, 12, 100] 25 = 10.75 := by
    simp [collect.percentile, Int.toNat]
    norm_num
  have hq3 : collect.percentile [(10 : ℚ), 11, 12, 100] 75 = 34 := by
    simp [collect.percentile, Int.toNat]
    norm_num
  have hfil : collect.show_line_filter true [(10, 1), (12, 1), (11, 1), (100, 1)]
      = [(10, 1), (12, 1), (11, 1)] := by
    have hsort2 : List.insertionSort (· ≤ ·)
        (List.map Prod.fst [((10 : ℚ), (1 : ℚ)), (12, 1), (11, 1), (100, 1)])
        = [10, 11, 12, 100] := by
      norm_num [List.insertionSort, List.orderedInsert]
    rw [collect.show_line_filter]
    norm_num [hsort2, hq1, hq3, List.filter_cons, decide_eq_true_eq]
  refine ⟨by rw [hsort]; exact hq1, hfil, ?_⟩
  rw [hfil, collect.weighted_median]
  have hsort3 : List.insertionSort (fun a b : ℚ × ℚ => a.1 ≤ b.1)
      [((10 : ℚ), (1 : ℚ)), (12, 1), (11, 1)] = [(10, 1), (11, 1), (12, 1)] := by
    norm_num [List.insertionSort, List.orderedInsert]
  rw [if_neg (by simp), hsort3]
  norm_num [collect.wmGo]

/-- The empty list has percentile 0 (sentinel). -/
lemma percentile_nil (p : ℚ) : collect.percentile [] p = 0 := by
  simp [collect.percentile]

/-- Claim C10: `_trim_iqr` keeps everything below 4 values; the show-level
fence in collect_show_rates/main is only applied from 4 line observations on;
the episode-level trim in `_analyze_items` applies the fence whenever the IQR
is positive, with no population-size guard at all. -/
theorem C10_small_population_guards :
    (∀ values : List ℚ, values.length < 4 → visualize.trim_iqr values = values.toFinset)
    ∧ (∀ lr : List (ℚ × ℚ), lr.length < 4 →
        ∀ b : Bool, collect.show_line_filter b lr = lr)
    ∧ (∀ entries : List CEntry,
        0 < collect.percentile
              (List.insertionSort (· ≤ ·) (entries.map CEntry.rate)) 75
            - collect.percentile
              (List.insertionSort (· ≤ ·) (entries.map CEntry.rate)) 25 →
        collect.trim_entries true entries
          = entries.filter fun e => decide
              (collect.percentile
                  (List.insertionSort (· ≤ ·) (entries.map CEntry.rate)) 25
                - 1.5 * (collect.percentile
                    (List.insertionSort (· ≤ ·) (entries.map CEntry.rate)) 75
                  - collect.percentile
                    (List.insertionSort (· ≤ ·) (entries.map CEntry.rate)) 25)
                ≤ e.rate
              ∧ e.rate
                ≤ collect.percentile
                    (List.insertionSort (· ≤ ·) (entries.map CEntry.rate)) 75
                  + 1.5 * (collect.percentile
                      (List.insertionSort (· ≤ ·) (entries.map CEntry.rate)) 75
                    - collect.percentile
                      (List.insertionSort (· ≤ ·) (entries.map CEntry.rate)) 25))) := by
  refine ⟨?_, ?_, ?_⟩
  · intro values h
    rw [visualize.trim_iqr, if_pos h]
  · intro lr h b
    rw [collect.show_line_filter, if_neg]
    rintro ⟨-, h4⟩
    omega
  · intro entries hiqr
    rcases entries with - | ⟨e, es⟩
    · simp at hiqr
      rw [percentile_nil, percentile_nil] at hiqr
      norm_num at hiqr
    · rw [collect.trim_entries, if_pos ⟨rfl, by simp⟩]
      rw [if_pos hiqr]

/-- Witness for C10 at concrete inputs: 3 values pass `_trim_iqr` untouched,
3 line observations pass the show-level fence untouched, and a 2-entry episode
with distinct rates (positive IQR) is fence-filtered by `_analyze_items`. -/
theorem C10_witness :
    (([1, 2, 3] : List ℚ).length < 4
      ∧ visualize.trim_iqr [1, 2, 3] = ([1, 2, 3] : List ℚ).toFinset)
    ∧ (([(1, 1), (2, 1)] : List (ℚ × ℚ)).length < 4
      ∧ collect.show_line_filter true [(1, 1), (2, 1)] = [(1, 1), (2, 1)])
    ∧ collect.trim_entries true [⟨0, 1000, 5, 10⟩, ⟨0, 1000, 5, 20⟩]
        = List.filter (fun e => decide
            (collect.percentile
                (List.insertionSort (· ≤ ·)
                  (List.map CEntry.rate [⟨0, 1000, 5, 10⟩, ⟨0, 1000, 5, 20⟩])) 25
              - 1.5 * (collect.percentile
                  (List.insertionSort (· ≤ ·)
                    (List.map CEntry.rate [⟨0, 1000, 5, 10⟩, ⟨0, 1000, 5, 20⟩])) 75
                - collect.percentile
                  (List.insertionSort (· ≤ ·)
                    (List.map CEntry.rate [⟨0, 1000, 5, 10⟩, ⟨0, 1000, 5, 20⟩])) 25)
              ≤ e.rate
            ∧ e.rate
              ≤ collect.percentile
                  (List.insertionSort (· ≤ ·)
                    (List.map CEntry.rate [⟨0, 1000, 5, 10⟩, ⟨0, 1000, 5, 20⟩])) 75
                + 1.5 * (collect.percentile
                    (List.insertionSort (· ≤ ·)
                      (List.map CEntry.rate [⟨0, 1000, 5, 10⟩, ⟨0, 1000, 5, 20⟩])) 75
                  - collect.percentile
                    (List.insertionSort (· ≤ ·)
                      (List.map CEntry.rate [⟨0, 1000, 5, 10⟩, ⟨0, 1000, 5, 20⟩])) 25)))
          [⟨0, 1000, 5, 10⟩, ⟨0, 1000, 5, 20⟩] := by
  refine ⟨⟨by norm_num, C10_small_population_guards.1 _ (by norm_num)⟩,
    ⟨by norm_num, C10_small_population_guards.2.1 _ (by norm_num) true⟩,
    C10_small_population_guards.2.2 _ ?_⟩
  have hsort : List.insertionSort (· ≤ ·)
      (List.map CEntry.rate [⟨0, 1000, 5, 10⟩, ⟨0, 1000, 5, 20⟩]) = [10, 20] := by
    norm_num [List.insertionSort, List.orderedInsert]
  rw [hsort]
  have h25 : collect.percentile [(10 : ℚ), 20] 25 = 12.5 := by
    simp [collect.percentile, Int.toNat]
    norm_num
  have h75 : collect.percentile [(10 : ℚ), 20] 75 = 17.5 := by
    simp [collect.percentile, Int.toNat]
    norm_num
  rw [h25, h75]
  norm_num

/-- All-equal lists have every `getLastD` equal to that value. -/
lemma getLastD_all_eq {c : ℚ} :
    ∀ (l : List ℚ) (d : ℚ), l ≠ [] → (∀ v ∈ l, v = c) → l.getLastD d = c := by
  intro l
  induction l with
  | nil => tauto
  | cons a as ih =>
    intro d _ hall
    cases as with
    | nil => simpa using hall a (by simp)
    | cons b bs =>
      rw [List.getLastD_cons]
      exact ih a (by simp) fun v hv => hall v (by simp [List.mem_cons] at hv ⊢; tauto)

/-- `_percentile` of a constant list is that constant, at every `p`. -/
lemma percentile_all_eq {S : List ℚ} {c : ℚ} (hS : S ≠ [])
    (hall : ∀ v ∈ S, v = c) (p : ℚ) : collect.percentile S p = c := by
  have hhead : S.headI = c := by
    cases S with
    | nil => exact absurd rfl hS
    | cons a as => exact hall a (by simp)
  simp only [collect.percentile]
  rw [if_neg hS]
  by_cases hp0 : p ≤ 0
  · rw [if_pos hp0]; exact hhead
  rw [if_neg hp0]
  by_cases hp1 : 100 ≤ p
  · rw [if_pos hp1]; exact getLastD_all_eq S 0 hS hall
  rw [if_neg hp1]
  push_neg at hp0 hp1
  have hn1 : 1 ≤ S.length := List.length_pos.mpr hS
  set n := S.length with hn
  set k : ℚ := ((n : ℚ) - 1) * (p / 100) with hk
  have hcast : (1 : ℚ) ≤ (n : ℚ) := by exact_mod_cast hn1
  have hk0 : 0 ≤ k := by
    rw [hk]
    apply mul_nonneg (by linarith) (by positivity)
  have hkle : k ≤ (n : ℚ) - 1 := by
    rw [hk]
    calc ((n : ℚ) - 1) * (p / 100) ≤ ((n : ℚ) - 1) * 1 :=
          mul_le_mul_of_nonneg_left (by linarith) (by linarith)
    _ = (n : ℚ) - 1 := mul_one _
  set f : ℕ := Int.toNat ⌊k⌋ with hf
  have hfloor0 : (0 : ℤ) ≤ ⌊k⌋ := Int.floor_nonneg.mpr hk0
  have hfk : (f : ℚ) ≤ k := by
    have h1 : ((f : ℤ) : ℚ) ≤ k := by
      rw [hf, Int.toNat_of_nonneg hfloor0]
      exact Int.floor_le k
    exact_mod_cast h1
  have hfn : f ≤ n - 1 := by
    have h2 : (f : ℚ) ≤ ((n - 1 : ℕ) : ℚ) := by
      rw [Nat.cast_sub hn1]
      push_cast
      linarith
    exact_mod_cast h2
  by_cases hfc : f = min (f + 1) (n - 1)
  · rw [if_pos hfc]
    have hflt : f < n := by omega
    rw [List.getD_eq_getElem _ _ hflt]
    exact hall _ (List.getElem_mem _)
  · rw [if_neg hfc]
    have hlt : f < n - 1 := by omega
    have hmin : min (f + 1) (n - 1) = f + 1 := by omega
    rw [hmin]
    have hf1 : f + 1 < n := by omega
    have hflt : f < n := by omega
    rw [List.getD_eq_getElem _ _ hflt, List.getD_eq_getElem _ _ hf1]
    rw [hall _ (List.getElem_mem _), hall _ (List.getElem_mem _)]
    push_cast
    ring

/-- With fewer than 4 values, every value of a sample lies inside the sample's
own Tukey fence, so the `len < 4` early return of `_trim_iqr` agrees with the
fence filter. -/
lemma small_in_fence (values : List ℚ) (hlen : values.length < 4)
    (v : ℚ) (hv : v ∈ values) :
    collect.percentile (List.insertionSort (· ≤ ·) values) 25
        - 1.5 * (collect.percentile (List.insertionSort (· ≤ ·) values) 75
          - collect.percentile (List.insertionSort (· ≤ ·) values) 25) ≤ v
    ∧ v ≤ collect.percentile (List.insertionSort (· ≤ ·) values) 75
        + 1.5 * (collect.percentile (List.insertionSort (· ≤ ·) values) 75
          - collect.percentile (List.insertionSort (· ≤ ·) values) 25) := by
  have hperm := List.perm_insertionSort (· ≤ ·) values
  have hsort := List.sorted_insertionSort (· ≤ ·) values
  have hvS : v ∈ List.insertionSort (· ≤ ·) values := hperm.mem_iff.mpr hv
  have hlenS : (List.insertionSort (· ≤ ·) values).length < 4 := by
    rw [hperm.length_eq]; exact hlen
  set S := List.insertionSort (· ≤ ·) values with hSdef
  clear_value S
  clear hperm hSdef hv hlen
  match S, hsort, hvS, hlenS with
  | [], _, hvS, _ => exact absurd hvS (by simp)
  | [a], _, hvS, _ =>
    have h1 : collect.percentile [a] 25 = a := percentile_all_eq (by simp) (by simp) 25
    have h3 : collect.percentile [a] 75 = a := percentile_all_eq (by simp) (by simp) 75
    rw [h1, h3]
    simp only [List.mem_singleton] at hvS
    subst hvS
    constructor <;> linarith
  | [a, b], hsort, hvS, _ =>
    simp only [List.sorted_cons, List.mem_singleton, List.mem_cons,
      List.not_mem_nil, or_false, forall_eq, List.sorted_singleton] at hsort
    obtain ⟨hab, -⟩ := hsort
    have h1 : collect.percentile [a, b] 25 = a * (3 / 4) + b * (1 / 4) := by
      simp [collect.percentile, Int.toNat]
      norm_num
    have h3 : collect.percentile [a, b] 75 = a * (1 / 4) + b * (3 / 4) := by
      simp [collect.percentile, Int.toNat]
      norm_num
    rw [h1, h3]
    simp only [List.mem_cons, List.mem_singleton, List.not_mem_nil, or_false] at hvS
    rcases hvS with rfl | rfl
    · constructor <;> linarith
    · constructor <;> linarith
  | [a, b, c], hsort, hvS, _ =>
    simp only [List.sorted_cons, List.mem_cons, List.mem_singleton,
      List.not_mem_nil, or_false, List.sorted_singleton] at hsort
    obtain ⟨hab, hbc, -⟩ := hsort
    have hab1 : a ≤ b := hab b (Or.inl rfl)
    have hac : a ≤ c := hab c (Or.inr rfl)
    have hbc1 : b ≤ c := hbc c rfl
    have h1 : collect.percentile [a, b, c] 25 = a * (1 / 2) + b * (1 / 2) := by
      simp [collect.percentile, Int.toNat]
      norm_num
    have h3 : collect.percentile [a, b, c] 75 = b * (1 / 2) + c * (1 / 2) := by
      simp [collect.percentile, Int.toNat]
      norm_num
    rw [h1, h3]
    simp only [List.mem_cons, List.mem_singleton, List.not_mem_nil, or_false] at hvS
    rcases hvS with rfl | rfl | rfl
    · constructor <;> linarith
    · constructor <;> linarith
    · constructor <;> linarith
  | a :: b :: c :: d :: tl, _, _, hlenS => simp at hlenS; omega

/-- Claim C1: at both trimming sites, a positive IQR yields exactly the
subsequence inside the Tukey fence `[Q1 - 1.5*IQR, Q3 + 1.5*IQR]`, a
non-positive IQR keeps every value unchanged, and in particular an all-equal
sample is returned whole.  (`_trim_iqr` returns a set; the equality is between
the set and the fence-filtered subsequence's set.) -/
theorem C1_trimmer_fence_spec :
    (∀ (entries : List CEntry) (q1 q3 : ℚ),
      q1 = collect.percentile
        (List.insertionSort (· ≤ ·) (entries.map CEntry.rate)) 25 →
      q3 = collect.percentile
        (List.insertionSort (· ≤ ·) (entries.map CEntry.rate)) 75 →
      (0 < q3 - q1 →
        collect.trim_entries true entries
          = entries.filter fun e => decide
              (q1 - 1.5 * (q3 - q1) ≤ e.rate ∧ e.rate ≤ q3 + 1.5 * (q3 - q1)))
      ∧ (q3 - q1 ≤ 0 → collect.trim_entries true entries = entries)
      ∧ (∀ c : ℚ, (∀ e ∈ entries, CEntry.rate e = c) →
          collect.trim_entries true entries = entries))
    ∧ (∀ (values : List ℚ) (q1 q3 : ℚ),
      q1 = collect.percentile (List.insertionSort (· ≤ ·) values) 25 →
      q3 = collect.percentile (List.insertionSort (· ≤ ·) values) 75 →
      (0 < q3 - q1 →
        visualize.trim_iqr values
          = (values.filter fun v => decide
              (q1 - 1.5 * (q3 - q1) ≤ v ∧ v ≤ q3 + 1.5 * (q3 - q1))).toFinset)
      ∧ (q3 - q1 ≤ 0 → visualize.trim_iqr values = values.toFinset)
      ∧ (∀ c : ℚ, (∀ v ∈ values, v = c) →
          visualize.trim_iqr values = values.toFinset)) := by
  constructor
  · intro entries q1 q3 hq1 hq3
    subst hq1; subst hq3
    refine ⟨?_, ?_, ?_⟩
    · intro hiqr
      rcases entries with - | ⟨e, es⟩
      · simp only [List.map_nil] at hiqr
        rw [show List.insertionSort (· ≤ ·) ([] : List ℚ) = [] from rfl,
          percentile_nil, percentile_nil] at hiqr
        norm_num at hiqr
      · rw [collect.trim_entries, if_pos ⟨rfl, by simp⟩, if_pos hiqr]
    · intro hle
      rcases entries with - | ⟨e, es⟩
      · rw [collect.trim_entries, if_neg (by simp)]
      · rw [collect.trim_entries, if_pos ⟨rfl, by simp⟩, if_neg (not_lt.mpr hle)]
    · intro c hc
      rcases entries with - | ⟨e, es⟩
      · rw [collect.trim_entries, if_neg (by simp)]
      · have hperm := List.perm_insertionSort (· ≤ ·) ((e :: es).map CEntry.rate)
        have hne : List.insertionSort (· ≤ ·) ((e :: es).map CEntry.rate) ≠ [] := by
          apply List.ne_nil_of_length_pos
          rw [hperm.length_eq]
          simp
        have hallS : ∀ v ∈ List.insertionSort (· ≤ ·) ((e :: es).map CEntry.rate),
            v = c := by
          intro v hv
          have hv2 : v ∈ (e :: es).map CEntry.rate := hperm.mem_iff.mp hv
          obtain ⟨x, hx, rfl⟩ := List.mem_map.mp hv2
          exact hc x hx
        have h25 := percentile_all_eq hne hallS 25
        have h75 := percentile_all_eq hne hallS 75
        rw [collect.trim_entries, if_pos ⟨rfl, by simp⟩, if_neg (by rw [h25, h75]; simp)]
  · intro values q1 q3 hq1 hq3
    subst hq1; subst hq3
    refine ⟨?_, ?_, ?_⟩
    · intro hiqr
      by_cases hlen : values.length < 4
      · rw [visualize.trim_iqr, if_pos hlen]
        have hfil : (values.filter fun v => decide
            (collect.percentile (List.insertionSort (· ≤ ·) values) 25
                - 1.5 * (collect.percentile (List.insertionSort (· ≤ ·) values) 75
                  - collect.percentile (List.insertionSort (· ≤ ·) values) 25) ≤ v
              ∧ v ≤ collect.percentile (List.insertionSort (· ≤ ·) values) 75
                + 1.5 * (collect.percentile (List.insertionSort (· ≤ ·) values) 75
                  - collect.percentile (List.insertionSort (· ≤ ·) values) 25)))
            = values := by
          apply List.filter_eq_self.mpr
          intro a ha
          rw [decide_eq_true_eq]
          exact small_in_fence values hlen a ha
        rw [hfil]
      · rw [visualize.trim_iqr, if_neg hlen]
        simp only [visualize.percentile]
        rw [if_neg (not_le.mpr hiqr)]
    · intro hle
      by_cases hlen : values.length < 4
      · rw [visualize.trim_iqr, if_pos hlen]
      · rw [visualize.trim_iqr, if_neg hlen]
        simp only [visualize.percentile]
        rw [if_pos hle]
    · intro c hc
      by_cases hlen : values.length < 4
      · rw [visualize.trim_iqr, if_pos hlen]
      · have hne : values ≠ [] := by
          intro h
          rw [h] at hlen
          simp at hlen
        have hperm := List.perm_insertionSort (· ≤ ·) values
        have hneS : List.insertionSort (· ≤ ·) values ≠ [] := by
          apply List.ne_nil_of_length_pos
          rw [hperm.length_eq]
          exact List.length_pos.mpr hne
        have hallS : ∀ v ∈ List.insertionSort (· ≤ ·) values, v = c := fun v hv =>
          hc v (hperm.mem_iff.mp hv)
        have h25 := percentile_all_eq hneS hallS 25
        have h75 := percentile_all_eq hneS hallS 75
        rw [visualize.trim_iqr, if_neg hlen]
        simp only [visualize.percentile]
        rw [if_pos (by rw [h25, h75]; simp)]

/-- Witness for C1: a 2-entry episode with rates 10 and 30 (IQR 10 > 0) is
fence-filtered; an all-equal singleton episode and the all-equal value list
`[5,5,5,5]` are returned whole; `[1,2,3,100]` (IQR > 0) is fence-filtered by
`_trim_iqr`. -/
theorem C1_witness :
    (0 < collect.percentile (List.insertionSort (· ≤ ·)
          (List.map CEntry.rate [⟨0, 1000, 5, 10⟩, ⟨0, 3000, 5, 30⟩])) 75
        - collect.percentile (List.insertionSort (· ≤ ·)
          (List.map CEntry.rate [⟨0, 1000, 5, 10⟩, ⟨0, 3000, 5, 30⟩])) 25
      ∧ collect.trim_entries true [⟨0, 1000, 5, 10⟩, ⟨0, 3000, 5, 30⟩]
        = List.filter (fun e => decide
            (collect.percentile (List.insertionSort (· ≤ ·)
                (List.map CEntry.rate [⟨0, 1000, 5, 10⟩, ⟨0, 3000, 5, 30⟩])) 25
              - 1.5 * (collect.percentile (List.insertionSort (· ≤ ·)
                  (List.map CEntry.rate [⟨0, 1000, 5, 10⟩, ⟨0, 3000, 5, 30⟩])) 75
                - collect.percentile (List.insertionSort (· ≤ ·)
                  (List.map CEntry.rate [⟨0, 1000, 5, 10⟩, ⟨0, 3000, 5, 30⟩])) 25)
              ≤ e.rate
            ∧ e.rate ≤ collect.percentile (List.insertionSort (· ≤ ·)
                  (List.map CEntry.rate [⟨0, 1000, 5, 10⟩, ⟨0, 3000, 5, 30⟩])) 75
                + 1.5 * (collect.percentile (List.insertionSort (· ≤ ·)
                    (List.map CEntry.rate [⟨0, 1000, 5, 10⟩, ⟨0, 3000, 5, 30⟩])) 75
                  - collect.percentile (List.insertionSort (· ≤ ·)
                    (List.map CEntry.rate [⟨0, 1000, 5, 10⟩, ⟨0, 3000, 5, 30⟩])) 25)))
          [⟨0, 1000, 5, 10⟩, ⟨0, 3000, 5, 30⟩])
    ∧ collect.trim_entries true [⟨0, 1000, 5, 10⟩] = [⟨0, 1000, 5, 10⟩]
    ∧ (0 < collect.percentile (List.insertionSort (· ≤ ·) [(1 : ℚ), 2, 3, 100]) 75
        - collect.percentile (List.insertionSort (· ≤ ·) [(1 : ℚ), 2, 3, 100]) 25
      ∧ visualize.trim_iqr [1, 2, 3, 100]
        = (List.filter (fun v => decide
            (collect.percentile (List.insertionSort (· ≤ ·) [(1 : ℚ), 2, 3, 100]) 25
              - 1.5 * (collect.percentile
                  (List.insertionSort (· ≤ ·) [(1 : ℚ), 2, 3, 100]) 75
                - collect.percentile
                  (List.insertionSort (· ≤ ·) [(1 : ℚ), 2, 3, 100]) 25)
              ≤ v
            ∧ v ≤ collect.percentile
                  (List.insertionSort (· ≤ ·) [(1 : ℚ), 2, 3, 100]) 75
                + 1.5 * (collect.percentile
                    (List.insertionSort (· ≤ ·) [(1 : ℚ), 2, 3, 100]) 75
                  - collect.percentile
                    (List.insertionSort (· ≤ ·) [(1 : ℚ), 2, 3, 100]) 25)))
          [1, 2, 3, 100]).toFinset)
    ∧ visualize.trim_iqr [5, 5, 5, 5] = ([5, 5, 5, 5] : List ℚ).toFinset := by
  have hsortA : List.insertionSort (· ≤ ·)
      (List.map CEntry.rate [⟨0, 1000, 5, 10⟩, ⟨0, 3000, 5, 30⟩]) = [10, 30] := by
    norm_num [List.insertionSort, List.orderedInsert]
  have h25A : collect.percentile [(10 : ℚ), 30] 25 = 15 := by
    simp [collect.percentile, Int.toNat]
    norm_num
  have h75A : collect.percentile [(10 : ℚ), 30] 75 = 25 := by
    simp [collect.percentile, Int.toNat]
    norm_num
  have hA : 0 < collect.percentile (List.insertionSort (· ≤ ·)
        (List.map CEntry.rate [⟨0, 1000, 5, 10⟩, ⟨0, 3000, 5, 30⟩])) 75
      - collect.percentile (List.insertionSort (· ≤ ·)
        (List.map CEntry.rate [⟨0, 1000, 5, 10⟩, ⟨0, 3000, 5, 30⟩])) 25 := by
    rw [hsortA, h25A, h75A]; norm_num
  have hsortB : List.insertionSort (· ≤ ·) [(1 : ℚ), 2, 3, 100] = [1, 2, 3, 100] := by
    norm_num [List.insertionSort, List.orderedInsert]
  have h25B : collect.percentile [(1 : ℚ), 2, 3, 100] 25 = 7 / 4 := by
    simp [collect.percentile, Int.toNat]
    norm_num
  have h75B : collect.percentile [(1 : ℚ), 2, 3, 100] 75 = 109 / 4 := by
    simp [collect.percentile, Int.toNat]
    norm_num
  have hB : 0 < collect.percentile (List.insertionSort (· ≤ ·) [(1 : ℚ), 2, 3, 100]) 75
      - collect.percentile (List.insertionSort (· ≤ ·) [(1 : ℚ), 2, 3, 100]) 25 := by
    rw [hsortB, h25B, h75B]; norm_num
  refine ⟨⟨hA, (C1_trimmer_fence_spec.1 _ _ _ rfl rfl).1 hA⟩,
    (C1_trimmer_fence_spec.1 _ _ _ rfl rfl).2.2 10 ?_,
    ⟨hB, (C1_trimmer_fence_spec.2 _ _ _ rfl rfl).1 hB⟩,
    (C1_trimmer_fence_spec.2 _ _ _ rfl rfl).2.2 5 ?_⟩
  · intro e he
    simp only [List.mem_singleton] at he
    subst he
    rfl
  · intro v hv
    simp only [List.mem_cons, List.not_mem_nil, or_false] at hv
    rcases hv with rfl | rfl | rfl | rfl <;> rfl

/-- `reader` with its `to_kana` replaced by one that ignores the per-call
`strip_sokuon` argument and always uses the fixed flag `b`. -/
def KanaReader.fix_sokuon (reader : KanaReader) (b : Bool) : KanaReader :=
  { reader with to_kana := fun t _ => reader.to_kana t b }

/-- Claim C9: every extraction path calls `to_kana` with
`strip_sokuon = (unit == "kana")`: replacing the reader by one whose
`to_kana` ignores the passed flag and always uses `unit == "kana"` changes
nothing, and that flag is `true` exactly for the `kana` unit, `false` for
`mora` and `syllable`. -/
theorem C9_strip_sokuon_flag :
    (∀ (sn : String → String) (reader : KanaReader) (items : List Item)
        (unit : String),
      visualize.line_entries sn (reader.fix_sokuon (unit == "kana")) items unit
          = visualize.line_entries sn reader items unit
      ∧ collect.line_rates sn (reader.fix_sokuon (unit == "kana")) items unit
          = collect.line_rates sn reader items unit
      ∧ ∀ b : Bool,
          collect.analyze_items sn (reader.fix_sokuon (unit == "kana")) items unit b
            = collect.analyze_items sn reader items unit b)
    ∧ ((("kana" : String) == "kana") = true
      ∧ (("mora" : String) == "kana") = false
      ∧ (("syllable" : String) == "kana") = false) := by
  exact ⟨fun sn reader items unit => ⟨rfl, rfl, fun b => rfl⟩, rfl, rfl, rfl⟩

/-- A record is rejected by the per-record pipeline: raw text blank, text
blank after `strip_nonspoken`, non-positive duration, or non-positive unit
count. -/
def rejected (sn : String → String) (reader : KanaReader) (unit : String)
    (it : Item) : Prop :=
  blank it.2.2 = true ∨ blank (sn it.2.2) = true ∨ it.2.1 - it.1 ≤ 0 ∨
    count_of reader unit (reader.to_kana (sn it.2.2) (unit == "kana")) ≤ 0

/-- A rejected record produces no line entry. -/
lemma line_entry_eq_none {sn : String → String} {reader : KanaReader}
    {unit : String} {it : Item} (h : rejected sn reader unit it) :
    line_entry? sn reader unit it = none := by
  obtain ⟨s, e, t⟩ := it
  simp only [rejected] at h
  simp only [line_entry?]
  split_ifs with h1 h2 h3 h4
  · rfl
  · rfl
  · rfl
  · rfl
  · rcases h with hh | hh | hh | hh
    · exact absurd hh h1
    · exact absurd hh h2
    · exact absurd hh h3
    · exact absurd hh h4

/-- A surviving line entry has positive count, duration and rate. -/
lemma line_entry_some_pos {sn : String → String} {reader : KanaReader}
    {unit : String} {it : Item} {v : VEntry}
    (h : line_entry? sn reader unit it = some v) :
    0 < v.count ∧ 0 < v.dur ∧ 0 < v.rate := by
  obtain ⟨s, e, t⟩ := it
  simp only [line_entry?] at h
  split_ifs at h with h1 h2 h3 h4
  · have h' : _ = v := Option.some.inj h
    rw [← h']
    have hc : (0 : ℤ) < count_of reader unit (reader.to_kana (sn t) (unit == "kana")) :=
      lt_of_not_le h4
    have hd : (0 : ℤ) < e - s := lt_of_not_le h3
    have hdq : (0 : ℚ) < ((e - s : ℤ) : ℚ) := by exact_mod_cast hd
    have hcq : (0 : ℚ)
        < ((count_of reader unit (reader.to_kana (sn t) (unit == "kana")) : ℤ) : ℚ) := by
      exact_mod_cast hc
    exact ⟨hc, div_pos hdq (by norm_num),
      div_pos hcq (div_pos (div_pos hdq (by norm_num)) (by norm_num))⟩

/-- Every entry of `_analyze_items`' entry list has a positive count. -/
lemma mem_analyze_entries_pos {sn : String → String} {reader : KanaReader}
    {items : List Item} {unit : String} {ce : CEntry}
    (h : ce ∈ collect.analyze_entries sn reader items unit) :
    0 < ce.count ∧ 0 < ce.rate := by
  obtain ⟨it, -, hsome⟩ := List.mem_filterMap.mp h
  obtain ⟨v, hv, rfl⟩ := Option.map_eq_some'.mp hsome
  obtain ⟨h1, -, h3⟩ := line_entry_some_pos hv
  exact ⟨h1, h3⟩

/-- The trimming block only ever drops entries. -/
lemma mem_of_mem_trim_entries {b : Bool} {l : List CEntry} {e : CEntry}
    (h : e ∈ collect.trim_entries b l) : e ∈ l := by
  simp only [collect.trim_entries] at h
  split_ifs at h with h1 h2
  · exact (List.mem_filter.mp h).1
  · exact h
  · exact h

/-- The episode-level trimming block of visualize_rates only ever drops
entries. -/
lemma mem_of_mem_trim_ventries {b : Bool} {l : List VEntry} {e : VEntry}
    (h : e ∈ visualize.trim_ventries b l) : e ∈ l := by
  simp only [visualize.trim_ventries] at h
  split_ifs at h with h1 h2
  · exact (List.mem_filter.mp h).1
  · exact h
  · exact h

/-- The aggregation tail of `_analyze_items` yields non-negative units,
minutes and rate whenever every entry has a positive count. -/
lemma finish_entries_nonneg (l : List CEntry) (hl : ∀ e ∈ l, 0 < e.count) :
    0 ≤ (collect.finish_entries l).1 ∧ 0 ≤ (collect.finish_entries l).2.1
    ∧ 0 ≤ (collect.finish_entries l).2.2 := by
  by_cases h : l = []
  · subst h
    simp [collect.finish_entries]
  · simp only [collect.finish_entries, if_neg h]
    have hunits : (0 : ℤ) ≤ (l.map CEntry.count).sum := by
      apply List.sum_nonneg
      intro x hx
      obtain ⟨e, he, rfl⟩ := List.mem_map.mp hx
      exact le_of_lt (hl e he)
    refine ⟨hunits, ?_, ?_⟩
    · dsimp only
      split_ifs with hms
      · have hq : (0 : ℚ) < (((List.map (fun i => i.2 - i.1)
            (merge_intervals (List.map (fun e => (e.start, e.stop)) l))).sum : ℤ) : ℚ) := by
          exact_mod_cast hms
        positivity
      · exact le_refl 0
    · dsimp only
      split_ifs with hms hmin hmin2
      · exact div_nonneg (by exact_mod_cast hunits) (le_of_lt hmin)
      · exact le_refl 0
      · exact absurd hmin2 (by norm_num)
      · exact le_refl 0

/-- `_episode_rate` is non-negative. -/
lemma episode_rate_nonneg (sn : String → String) (reader : KanaReader)
    (items : List Item) (unit : String) (b : Bool) :
    0 ≤ visualize.episode_rate sn reader items unit b := by
  have htotal : (0 : ℤ) ≤ ((visualize.trim_ventries b
      (visualize.line_entries sn reader items unit)).map VEntry.count).sum := by
    apply List.sum_nonneg
    intro x hx
    obtain ⟨v, hv, rfl⟩ := List.mem_map.mp hx
    have hv2 := mem_of_mem_trim_ventries hv
    obtain ⟨it, -, hsome⟩ := List.mem_filterMap.mp hv2
    exact le_of_lt (line_entry_some_pos hsome).1
  simp only [visualize.episode_rate, visualize.line_entries] at htotal ⊢
  split_ifs with h1 h2 h3 h4 h5
  · exact le_refl 0
  · exact le_refl 0
  · exact div_nonneg (by exact_mod_cast htotal) (le_of_lt h4)
  · exact le_refl 0
  · exact absurd h5 (by norm_num)
  · exact le_refl 0

/-- Claim C4: rejected records (blank text before or after normalization,
non-positive duration, non-positive count) contribute to no output in any of
the three extraction paths, every emitted line rate is non-negative (with a
positive duration weight), and every aggregate is non-negative with divisions
only taken behind positivity guards. -/
theorem C4_rejected_records_and_nonnegativity :
    (∀ (sn : String → String) (reader : KanaReader) (unit : String) (it : Item)
        (l1 l2 : List Item), rejected sn reader unit it →
      visualize.line_entries sn reader (l1 ++ it :: l2) unit
          = visualize.line_entries sn reader (l1 ++ l2) unit
      ∧ collect.line_rates sn reader (l1 ++ it :: l2) unit
          = collect.line_rates sn reader (l1 ++ l2) unit
      ∧ ∀ b : Bool, collect.analyze_items sn reader (l1 ++ it :: l2) unit b
          = collect.analyze_items sn reader (l1 ++ l2) unit b)
    ∧ (∀ (sn : String → String) (reader : KanaReader) (items : List Item)
        (unit : String), ∀ v ∈ visualize.line_entries sn reader items unit,
        0 ≤ v.rate ∧ 0 < v.dur)
    ∧ (∀ (sn : String → String) (reader : KanaReader) (items : List Item)
        (unit : String), ∀ p ∈ collect.line_rates sn reader items unit,
        0 ≤ p.1 ∧ 0 < p.2)
    ∧ (∀ (sn : String → String) (reader : KanaReader) (items : List Item)
        (unit : String) (b : Bool),
        0 ≤ (collect.analyze_items sn reader items unit b).1
        ∧ 0 ≤ (collect.analyze_items sn reader items unit b).2.1
        ∧ 0 ≤ (collect.analyze_items sn reader items unit b).2.2)
    ∧ (∀ (sn : String → String) (reader : KanaReader) (items : List Item)
        (unit : String) (b : Bool),
        0 ≤ visualize.episode_rate sn reader items unit b) := by
  refine ⟨?_, ?_, ?_, ?_, episode_rate_nonneg⟩
  · intro sn reader unit it l1 l2 hrej
    have hnone := line_entry_eq_none hrej
    have hent : visualize.line_entries sn reader (l1 ++ it :: l2) unit
        = visualize.line_entries sn reader (l1 ++ l2) unit := by
      simp only [visualize.line_entries, List.filterMap_append]
      rw [List.filterMap_cons_none hnone]
    have hcent : collect.analyze_entries sn reader (l1 ++ it :: l2) unit
        = collect.analyze_entries sn reader (l1 ++ l2) unit := by
      simp only [collect.analyze_entries, List.filterMap_append]
      rw [List.filterMap_cons_none (by rw [hnone]; rfl)]
    refine ⟨hent, ?_, fun b => ?_⟩
    · simp only [collect.line_rates, List.filterMap_append]
      rw [List.filterMap_cons_none hnone]
    · simp only [collect.analyze_items, hcent]
  · intro sn reader items unit v hv
    obtain ⟨it, -, hsome⟩ := List.mem_filterMap.mp hv
    obtain ⟨-, h2, h3⟩ := line_entry_some_pos hsome
    exact ⟨le_of_lt h3, h2⟩
  · intro sn reader items unit p hp
    simp only [collect.line_rates] at hp
    obtain ⟨v, hv, rfl⟩ := List.mem_map.mp hp
    obtain ⟨it, -, hsome⟩ := List.mem_filterMap.mp hv
    obtain ⟨-, h2, h3⟩ := line_entry_some_pos hsome
    exact ⟨le_of_lt h3, h2⟩
  · intro sn reader items unit b
    apply finish_entries_nonneg
    intro e he
    exact (mem_analyze_entries_pos (mem_of_mem_trim_entries he)).1

/-- Witness for C4: the record `(0, 0, "a")` (zero duration) is rejected and
dropped from every path. -/
theorem C4_witness :
    rejected id ⟨fun t _ => t, fun _ => 1, fun _ => 1, fun _ => 1⟩ ("mora") (0, 0, "a")
    ∧ visualize.line_entries id ⟨fun t _ => t, fun _ => 1, fun _ => 1, fun _ => 1⟩
        ([] ++ (0, 0, "a") :: [(0, 60000, "a")]) ("mora")
      = visualize.line_entries id ⟨fun t _ => t, fun _ => 1, fun _ => 1, fun _ => 1⟩
        ([] ++ [(0, 60000, "a")]) ("mora") := by
  have hrej : rejected id ⟨fun t _ => t, fun _ => 1, fun _ => 1, fun _ => 1⟩
      ("mora") (0, 0, "a") := by
    right; right; left
    norm_num
  exact ⟨hrej, (C4_rejected_records_and_nonnegativity.1 id
    ⟨fun t _ => t, fun _ => 1, fun _ => 1, fun _ => 1⟩ ("mora") (0, 0, "a")
    [] [(0, 60000, "a")] hrej).1⟩

/-- Sorting pairs preserves the weight sum. -/
lemma sum_snd_insertionSort (l : List (ℚ × ℚ)) :
    ((List.insertionSort (fun a b => a.1 ≤ b.1) l).map Prod.snd).sum
      = (l.map Prod.snd).sum :=
  ((List.perm_insertionSort (fun a b => a.1 ≤ b.1) l).map Prod.snd).sum_eq

/-- Claim C6: every degenerate case — empty inputs, non-positive total weight,
non-positive IQR, and trimming that empties the observation list — produces
the sentinel 0 (resp. the aggregate `(0, 0.0, 0.0)`); all embedded functions
are total, so no exception path exists. -/
theorem C6_degenerate_sentinels :
    (∀ (sn : String → String) (reader : KanaReader) (unit : String) (b : Bool),
      collect.analyze_items sn reader [] unit b = (0, 0, 0)
      ∧ visualize.episode_rate sn reader [] unit b = 0)
    ∧ (∀ (sn : String → String) (reader : KanaReader) (items : List Item)
        (unit : String) (b : Bool),
      (collect.trim_entries b (collect.analyze_entries sn reader items unit) = [] →
        collect.analyze_items sn reader items unit b = (0, 0, 0))
      ∧ (visualize.trim_ventries b (visualize.line_entries sn reader items unit) = [] →
        visualize.episode_rate sn reader items unit b = 0))
    ∧ (∀ (values ws : List ℚ), values ≠ [] → ws ≠ [] →
      (ws.sum ≤ 0 → visualize.weighted_mean values (some ws) = 0)
      ∧ (((values.zip ws).map Prod.snd).sum ≤ 0 →
          visualize.weighted_median values (some ws) = 0))
    ∧ (∀ pairs : List (ℚ × ℚ), pairs ≠ [] → (pairs.map Prod.snd).sum ≤ 0 →
        collect.weighted_median pairs = 0)
    ∧ (∀ (values : List ℚ) (q1 q3 : ℚ),
        q3 = collect.percentile (List.insertionSort (· ≤ ·) values) 75 →
        q1 = collect.percentile (List.insertionSort (· ≤ ·) values) 25 →
        q3 - q1 ≤ 0 → visualize.trim_iqr values = values.toFinset)
    ∧ (∀ (w : Option (List ℚ)) (bins : ℕ) (p : ℚ),
      visualize.weighted_mean [] w = 0
      ∧ visualize.weighted_median [] w = 0
      ∧ visualize.histogram_mode [] w bins = 0
      ∧ collect.weighted_median [] = 0
      ∧ collect.percentile [] p = 0) := by
  refine ⟨?_, ?_, ?_, ?_, ?_, ?_⟩
  · intro sn reader unit b
    constructor
    · simp [collect.analyze_items, collect.analyze_entries, collect.trim_entries,
        collect.finish_entries]
    · simp [visualize.episode_rate, visualize.line_entries]
  · intro sn reader items unit b
    constructor
    · intro h
      simp only [collect.analyze_items, h]
      simp [collect.finish_entries]
    · intro h
      simp only [visualize.episode_rate, h]
      simp
  · intro values ws hv hw
    constructor
    · intro hsum
      rw [visualize.weighted_mean, if_neg hv, if_neg (by simpa using hw),
        if_pos (by simpa using hsum)]
    · intro hsum
      rw [visualize.weighted_median, if_neg hv, if_neg (by simpa using hw)]
      rw [if_pos]
      calc ((List.insertionSort (fun a b => a.1 ≤ b.1)
            (values.zip ((some ws).getD []))).map Prod.snd).sum
          = ((values.zip ws).map Prod.snd).sum := by
            rw [show (some ws).getD [] = ws from rfl]
            exact sum_snd_insertionSort _
      _ ≤ 0 := hsum
  · intro pairs hp hsum
    rw [collect.weighted_median, if_neg hp, if_pos]
    calc ((List.insertionSort (fun a b => a.1 ≤ b.1) pairs).map Prod.snd).sum
        = (pairs.map Prod.snd).sum := sum_snd_insertionSort _
    _ ≤ 0 := hsum
  · intro values q1 q3 hq3 hq1 hle
    subst hq1; subst hq3
    by_cases hlen : values.length < 4
    · rw [visualize.trim_iqr, if_pos hlen]
    · rw [visualize.trim_iqr, if_neg hlen]
      simp only [visualize.percentile]
      rw [if_pos hle]
  · intro w bins p
    refine ⟨?_, ?_, ?_, ?_, percentile_nil p⟩
    · simp [visualize.weighted_mean]
    · simp [visualize.weighted_median]
    · simp [visualize.histogram_mode]
    · simp [collect.weighted_median]

/-- Witness for C6: zero-weight and negative-weight degenerate inputs, an
empty record list for the post-trim-empty clause, and an all-equal list for
the IQR clause. -/
theorem C6_witness :
    (collect.trim_entries true (collect.analyze_entries id
        ⟨fun t _ => t, fun _ => 1, fun _ => 1, fun _ => 1⟩ [] ("mora")) = []
      ∧ collect.analyze_items id ⟨fun t _ => t, fun _ => 1, fun _ => 1, fun _ => 1⟩
        [] ("mora") true = (0, 0, 0))
    ∧ (([(3 : ℚ)] : List ℚ).sum ≤ 0 ∨ True)
    ∧ visualize.weighted_mean [3] (some [0]) = 0
    ∧ visualize.weighted_median [3] (some [-1]) = 0
    ∧ collect.weighted_median [(5, 0)] = 0
    ∧ visualize.trim_iqr [7, 7, 7, 7, 7] = ([7, 7, 7, 7, 7] : List ℚ).toFinset := by
  have hsort7 : List.insertionSort (· ≤ ·) [(7 : ℚ), 7, 7, 7, 7] = [7, 7, 7, 7, 7] := by
    norm_num [List.insertionSort, List.orderedInsert]
  have hp7 : ∀ p : ℚ, collect.percentile
      (List.insertionSort (· ≤ ·) [(7 : ℚ), 7, 7, 7, 7]) p = 7 := by
    intro p
    exact percentile_all_eq (by rw [hsort7]; simp)
      (by rw [hsort7]; intro v hv; simpa using hv) p
  refine ⟨⟨rfl, (C6_degenerate_sentinels.2.1 id
      ⟨fun t _ => t, fun _ => 1, fun _ => 1, fun _ => 1⟩ [] ("mora") true).1 rfl⟩,
    Or.inr trivial,
    (C6_degenerate_sentinels.2.2.1 [3] [0] (by simp) (by simp)).1 (by norm_num),
    (C6_degenerate_sentinels.2.2.1 [3] [-1] (by simp) (by simp)).2 (by norm_num),
    C6_degenerate_sentinels.2.2.2.1 [(5, 0)] (by simp) (by norm_num),
    C6_degenerate_sentinels.2.2.2.2.1 [7, 7, 7, 7, 7] _ _ rfl rfl
      (by rw [hp7, hp7]; norm_num)⟩

/-- A concrete reader for concrete scenarios: identity phonetic conversion and
constant unit count 10. -/
def cr10 : KanaReader := ⟨fun t _ => t, fun _ => 10, fun _ => 10, fun _ => 10⟩

/-- Trimming leaves an all-equal-rate episode unchanged (IQR = 0). -/
lemma trim_entries_all_eq (l : List CEntry) (c : ℚ)
    (hall : ∀ e ∈ l, CEntry.rate e = c) : collect.trim_entries true l = l := by
  rcases l with - | ⟨e, es⟩
  · rw [collect.trim_entries, if_neg (by simp)]
  · have hperm := List.perm_insertionSort (· ≤ ·) ((e :: es).map CEntry.rate)
    have hne : List.insertionSort (· ≤ ·) ((e :: es).map CEntry.rate) ≠ [] := by
      apply List.ne_nil_of_length_pos
      rw [hperm.length_eq]
      simp
    have hallS : ∀ v ∈ List.insertionSort (· ≤ ·) ((e :: es).map CEntry.rate),
        v = c := by
      intro v hv
      obtain ⟨x, hx, rfl⟩ := List.mem_map.mp (hperm.mem_iff.mp hv)
      exact hall x hx
    rw [collect.trim_entries, if_pos ⟨rfl, by simp⟩,
      if_neg (by rw [percentile_all_eq hne hallS 25, percentile_all_eq hne hallS 75]; simp)]

/-- The single surviving entry of the one-record episode used in the C3
counterexample. -/
lemma c3_entries_one :
    collect.analyze_entries id cr10 [((0 : ℤ), (60000 : ℤ), "a")] ("mora")
      = [⟨0, 60000, 10, 10⟩] := by
  simp only [collect.analyze_entries, List.filterMap_cons, List.filterMap_nil,
    line_entry?, count_of, cr10, id_eq, show blank "a" = false from rfl]
  norm_num

/-- Entry list of the two-episode concatenation. -/
lemma c3_entries_two :
    collect.analyze_entries id cr10
        [((0 : ℤ), (60000 : ℤ), "a"), ((0 : ℤ), (60000 : ℤ), "a")] ("mora")
      = [⟨0, 60000, 10, 10⟩, ⟨0, 60000, 10, 10⟩] := by
  simp only [collect.analyze_entries, List.filterMap_cons, List.filterMap_nil,
    line_entry?, count_of, cr10, id_eq, show blank "a" = false from rfl]
  norm_num

/-- Aggregating the single entry: 10 units over one merged minute, rate 10. -/
lemma c3_finish_one :
    collect.finish_entries [⟨0, 60000, 10, 10⟩] = (10, 1, 10) := by
  simp only [collect.finish_entries, merge_intervals, merge_go, List.insertionSort,
    List.orderedInsert, List.map_cons, List.map_nil, List.sum_cons, List.sum_nil]
  norm_num

/-- Aggregating the two overlapping copies: 20 units but still one merged
minute, rate 20. -/
lemma c3_finish_two :
    collect.finish_entries [⟨0, 60000, 10, 10⟩, ⟨0, 60000, 10, 10⟩] = (20, 1, 20) := by
  simp only [collect.finish_entries, merge_intervals, merge_go, List.insertionSort,
    List.orderedInsert, List.map_cons, List.map_nil, List.sum_cons, List.sum_nil]
  norm_num [merge_go]
  intro h
  simp at h

/-- `_analyze_items` on the one-record episode. -/
lemma c3_analyze_one :
    collect.analyze_items id cr10 [((0 : ℤ), (60000 : ℤ), "a")] ("mora") true
      = (10, 1, 10) := by
  rw [collect.analyze_items, c3_entries_one,
    trim_entries_all_eq _ 10
      (by intro e he; simp only [List.mem_singleton] at he; subst he; rfl),
    c3_finish_one]

/-- `_analyze_items` on the concatenation of the two episodes. -/
lemma c3_analyze_two :
    collect.analyze_items id cr10
        [((0 : ℤ), (60000 : ℤ), "a"), ((0 : ℤ), (60000 : ℤ), "a")] ("mora") true
      = (20, 1, 20) := by
  rw [collect.analyze_items, c3_entries_two,
    trim_entries_all_eq _ 10
      (by intro e he
          simp only [List.mem_cons, List.mem_singleton, List.not_mem_nil, or_false] at he
          rcases he with rfl | rfl <;> rfl),
    c3_finish_two]

/-- Counterexample to claim C3: for the show made of two identical one-record
episodes (each 10 units in the span 0..60000 ms), the printed show aggregate
sums per-episode results — `(20, 2.0, 10.0)` — while running the single
aggregate algorithm once over the concatenation of the episodes' records
merges the coinciding spans and yields `(20, 1.0, 20.0)`. -/
theorem C3_counterexample :
    collect.show_aggregate id cr10 ("mora") true
        [[((0 : ℤ), (60000 : ℤ), "a")], [((0 : ℤ), (60000 : ℤ), "a")]]
      ≠ collect.analyze_items id cr10
        ([((0 : ℤ), (60000 : ℤ), "a")] ++ [((0 : ℤ), (60000 : ℤ), "a")]) ("mora") true := by
  have hcat : [((0 : ℤ), (60000 : ℤ), "a")] ++ [((0 : ℤ), (60000 : ℤ), "a")]
      = [((0 : ℤ), (60000 : ℤ), "a"), ((0 : ℤ), (60000 : ℤ), "a")] := rfl
  have hL : collect.show_aggregate id cr10 ("mora") true
      [[((0 : ℤ), (60000 : ℤ), "a")], [((0 : ℤ), (60000 : ℤ), "a")]] = (20, 2, 10) := by
    simp only [collect.show_aggregate, collect.show_totals, List.foldl_cons,
      List.foldl_nil, c3_analyze_one]
    norm_num
  rw [hcat, hL, c3_analyze_two]
  intro h
  have h2 := congrArg (fun t : ℤ × ℚ × ℚ => t.2.1) h
  norm_num at h2

/-- Claim C3 amended: the printed show aggregate is the componentwise SUM of
the per-episode `_analyze_items` results (units and minutes), with the rate
the guarded quotient of those sums — not the one-shot run of the aggregate
algorithm over the concatenated records (see `C3_counterexample`). -/
theorem C3_show_aggregate_is_sum_of_episodes
    (sn : String → String) (reader : KanaReader) (unit : String) (b : Bool)
    (episodes : List (List Item)) :
    collect.show_aggregate sn reader unit b episodes
      = ((episodes.map fun items =>
            (collect.analyze_items sn reader items unit b).1).sum,
         (episodes.map fun items =>
            (collect.analyze_items sn reader items unit b).2.1).sum,
         if 0 < (episodes.map fun items =>
            (collect.analyze_items sn reader items unit b).2.1).sum
         then ((episodes.map fun items =>
              (collect.analyze_items sn reader items unit b).1).sum : ℚ)
            / (episodes.map fun items =>
              (collect.analyze_items sn reader items unit b).2.1).sum
         else 0) := by
  suffices h : ∀ a : ℤ × ℚ,
      episodes.foldl (fun acc items =>
        let r := collect.analyze_items sn reader items unit b
        (acc.1 + r.1, acc.2 + r.2.1)) a
      = (a.1 + (episodes.map fun items =>
            (collect.analyze_items sn reader items unit b).1).sum,
         a.2 + (episodes.map fun items =>
            (collect.analyze_items sn reader items unit b).2.1).sum) by
    rw [collect.show_aggregate, collect.show_totals, h (0, 0)]
    norm_num
  induction episodes with
  | nil => intro a; simp
  | cons ep eps ih =>
    intro a
    simp only [List.foldl_cons, List.map_cons, List.sum_cons, ih]
    rw [Prod.mk.injEq]
    constructor <;> ring

/-- Cumulative weight of all pairs whose value is at most `x` (the CDF of the
weighted sample at `x`). -/
def cumW (ps : List (ℚ × ℚ)) (x : ℚ) : ℚ :=
  ((ps.filter fun p => decide (p.1 ≤ x)).map Prod.snd).sum

lemma cumW_cons (v w x : ℚ) (rest : List (ℚ × ℚ)) :
    cumW ((v, w) :: rest) x
      = if v ≤ x then w + cumW rest x else cumW rest x := by
  by_cases h : v ≤ x <;> simp [cumW, List.filter_cons, h]

lemma cumW_nonneg {s : List (ℚ × ℚ)} (hw : ∀ p ∈ s, 0 ≤ p.2) (x : ℚ) :
    0 ≤ cumW s x := by
  apply List.sum_nonneg
  intro y hy
  obtain ⟨q, hq, rfl⟩ := List.mem_map.mp hy
  exact hw q (List.mem_of_mem_filter hq)

lemma cumW_perm {l₁ l₂ : List (ℚ × ℚ)} (h : l₁.Perm l₂) (x : ℚ) :
    cumW l₁ x = cumW l₂ x :=
  ((h.filter _).map _).sum_eq

instance keyle_total : IsTotal (ℚ × ℚ) (fun a b => a.1 ≤ b.1) :=
  ⟨fun a b => le_total a.1 b.1⟩

instance keyle_trans : IsTrans (ℚ × ℚ) (fun a b => a.1 ≤ b.1) :=
  ⟨fun _ _ _ h1 h2 => le_trans h1 h2⟩

/-- The `_weighted_median` loop on a sorted pair list returns the least value
whose cumulative weight (relative to the starting accumulator) reaches the
target, and that value is one of the listed values. -/
lemma wmGo_spec (t last : ℚ) :
    ∀ (s : List (ℚ × ℚ)) (acc : ℚ),
    List.Sorted (fun a b : ℚ × ℚ => a.1 ≤ b.1) s →
    (∀ p ∈ s, 0 ≤ p.2) → s ≠ [] → t ≤ acc + (s.map Prod.snd).sum →
    collect.wmGo t last acc s ∈ s.map Prod.fst
    ∧ t ≤ acc + cumW s (collect.wmGo t last acc s)
    ∧ ∀ x ∈ s.map Prod.fst, x < collect.wmGo t last acc s →
        acc + cumW s x < t := by
  intro s
  induction s with
  | nil => intro acc _ _ hne _; exact absurd rfl hne
  | cons p rest ih =>
    obtain ⟨v, w⟩ := p
    intro acc hsort hw _ hreach
    have hsrest := (List.sorted_cons.mp hsort).2
    have hhead := (List.sorted_cons.mp hsort).1
    have hwrest : ∀ q ∈ rest, 0 ≤ q.2 := fun q hq => hw q (List.mem_cons_of_mem _ hq)
    by_cases hcase : t ≤ acc + w
    · have hret : collect.wmGo t last acc ((v, w) :: rest) = v := by
        simp only [collect.wmGo, if_pos hcase]
      rw [hret]
      refine ⟨by simp, ?_, ?_⟩
      · rw [cumW_cons, if_pos le_rfl]
        have h0 : 0 ≤ cumW rest v := cumW_nonneg hwrest v
        linarith
      · intro x hx hxlt
        simp only [List.map_cons, List.mem_cons] at hx
        rcases hx with rfl | hx
        · exact absurd hxlt (lt_irrefl x)
        · obtain ⟨q, hq, rfl⟩ := List.mem_map.mp hx
          exact absurd hxlt (not_lt.mpr (hhead q hq))
    · have hret : collect.wmGo t last acc ((v, w) :: rest)
          = collect.wmGo t last (acc + w) rest := by
        simp only [collect.wmGo, if_neg hcase]
      have hrestne : rest ≠ [] := by
        intro h
        subst h
        simp only [List.map_cons, List.map_nil, List.sum_cons, List.sum_nil,
          add_zero] at hreach
        exact hcase hreach
      have hreach' : t ≤ (acc + w) + (rest.map Prod.snd).sum := by
        simp only [List.map_cons, List.sum_cons] at hreach
        linarith
      obtain ⟨ihmem, ihb, ihc⟩ := ih (acc + w) hsrest hwrest hrestne hreach'
      rw [hret]
      have hvr : v ≤ collect.wmGo t last (acc + w) rest := by
        obtain ⟨q, hq, hfst⟩ := List.mem_map.mp ihmem
        rw [← hfst]
        exact hhead q hq
      refine ⟨by simp only [List.map_cons, List.mem_cons]; exact Or.inr ihmem, ?_, ?_⟩
      · rw [cumW_cons, if_pos hvr]
        linarith
      · intro x hx hxlt
        simp only [List.map_cons, List.mem_cons] at hx
        rcases hx with rfl | hx
        · by_cases hvtie : x ∈ rest.map Prod.fst
          · have := ihc x hvtie hxlt
            rw [cumW_cons, if_pos le_rfl]
            linarith
          · have hzero : cumW rest x = 0 := by
              have hfil : rest.filter (fun p => decide (p.1 ≤ x)) = [] := by
                rw [List.filter_eq_nil_iff]
                intro q hq
                simp only [decide_eq_true_eq]
                intro hle
                have hge := hhead q hq
                have : q.1 = x := le_antisymm hle hge
                exact hvtie (List.mem_map.mpr ⟨q, hq, this⟩)
              simp [cumW, hfil]
            rw [cumW_cons, if_pos le_rfl, hzero]
            push_neg at hcase
            linarith
        · have hrec := ihc x hx hxlt
          have hvx : v ≤ x := by
            obtain ⟨q, hq, rfl⟩ := List.mem_map.mp hx
            exact hhead q hq
          rw [cumW_cons, if_pos hvx]
          linarith

/-- Crossing characterisation of the weighted branch of `_weighted_median`:
with matching positive-length weights of non-negative value and positive total,
the result is the least listed value whose cumulative weight reaches half the
total, and it is itself one of the values (no interpolation). -/
lemma weighted_median_crossing (values ws : List ℚ)
    (hv : values ≠ []) (hlen : ws.length = values.length)
    (hw0 : ∀ w ∈ ws, 0 ≤ w)
    (hW : 0 < ((values.zip ws).map Prod.snd).sum) :
    visualize.weighted_median values (some ws) ∈ values
    ∧ ((values.zip ws).map Prod.snd).sum / 2
        ≤ cumW (values.zip ws) (visualize.weighted_median values (some ws))
    ∧ ∀ x ∈ values, x < visualize.weighted_median values (some ws) →
        cumW (values.zip ws) x < ((values.zip ws).map Prod.snd).sum / 2 := by
  have hwne : ws ≠ [] := by
    intro h
    subst h
    simp only [List.length_nil] at hlen
    exact hv (List.length_eq_zero.mp hlen.symm)
  have hperm := List.perm_insertionSort (fun a b : ℚ × ℚ => a.1 ≤ b.1) (values.zip ws)
  have hsort := List.sorted_insertionSort (fun a b : ℚ × ℚ => a.1 ≤ b.1) (values.zip ws)
  have hzipne : values.zip ws ≠ [] := by
    rcases values with - | ⟨a, as⟩
    · exact absurd rfl hv
    rcases ws with - | ⟨b, bs⟩
    · exact absurd rfl hwne
    simp [List.zip_cons_cons]
  have hpsne : List.insertionSort (fun a b : ℚ × ℚ => a.1 ≤ b.1) (values.zip ws) ≠ [] := by
    intro h
    rw [h] at hperm
    exact hzipne hperm.nil_eq.symm
  have hsum : ((List.insertionSort (fun a b : ℚ × ℚ => a.1 ≤ b.1)
      (values.zip ws)).map Prod.snd).sum = ((values.zip ws).map Prod.snd).sum :=
    (hperm.map _).sum_eq
  have hwsort : ∀ p ∈ List.insertionSort (fun a b : ℚ × ℚ => a.1 ≤ b.1)
      (values.zip ws), 0 ≤ p.2 := by
    intro p hp
    have hp2 := hperm.mem_iff.mp hp
    have := List.of_mem_zip hp2
    exact hw0 p.2 this.2
  have hmed : visualize.weighted_median values (some ws)
      = collect.wmGo (((values.zip ws).map Prod.snd).sum / 2)
        (((List.insertionSort (fun a b : ℚ × ℚ => a.1 ≤ b.1)
          (values.zip ws)).getLastD (0, 0)).1) 0
        (List.insertionSort (fun a b : ℚ × ℚ => a.1 ≤ b.1) (values.zip ws)) := by
    rw [visualize.weighted_median, if_neg hv, if_neg (by simpa using hwne)]
    rw [if_neg (by rw [show (some ws).getD [] = ws from rfl, hsum]; exact not_le.mpr hW)]
    rw [show (some ws).getD [] = ws from rfl, hsum]
  obtain ⟨hmem, hb, hc⟩ := wmGo_spec
    (((values.zip ws).map Prod.snd).sum / 2)
    (((List.insertionSort (fun a b : ℚ × ℚ => a.1 ≤ b.1)
        (values.zip ws)).getLastD (0, 0)).1)
    (List.insertionSort (fun a b : ℚ × ℚ => a.1 ≤ b.1) (values.zip ws)) 0
    hsort hwsort hpsne (by rw [hsum]; linarith)
  have hfst : (values.zip ws).map Prod.fst = values :=
    List.map_fst_zip values ws (by omega)
  rw [cumW_perm hperm] at hb
  refine ⟨?_, ?_, ?_⟩
  · rw [hmed]
    have := (hperm.map Prod.fst).mem_iff.mp hmem
    rw [hfst] at this
    exact this
  · rw [hmed]
    linarith
  · intro x hx hxlt
    have hxmem : x ∈ (List.insertionSort (fun a b : ℚ × ℚ => a.1 ≤ b.1)
        (values.zip ws)).map Prod.fst := by
      apply (hperm.map Prod.fst).mem_iff.mpr
      rw [hfst]
      exact hx
    have hcx := hc x hxmem (by rw [← hmed]; exact hxlt)
    rw [cumW_perm hperm] at hcx
    linarith

/-- Claim C5: with absent weights and an even value count, `_weighted_median`
averages the two central sorted values; with weights supplied it returns the
least value whose cumulative weight reaches half of the total — a member of
the value list, never an interpolation. -/
theorem C5_weighted_median_modes :
    (∀ values : List ℚ, values ≠ [] → values.length % 2 = 0 →
      ∀ l' : List ℚ, l'.Perm values → l'.Sorted (· ≤ ·) →
      visualize.weighted_median values none
        = (l'.getD (values.length / 2 - 1) 0 + l'.getD (values.length / 2) 0) / 2)
    ∧ (∀ values ws : List ℚ, values ≠ [] → ws.length = values.length →
        (∀ w ∈ ws, 0 < w) →
      visualize.weighted_median values (some ws) ∈ values
      ∧ ((values.zip ws).map Prod.snd).sum / 2
          ≤ cumW (values.zip ws) (visualize.weighted_median values (some ws))
      ∧ ∀ x ∈ values, x < visualize.weighted_median values (some ws) →
          cumW (values.zip ws) x < ((values.zip ws).map Prod.snd).sum / 2) := by
  constructor
  · intro values hv heven l' hperm' hsort'
    have hL : l' = List.insertionSort (· ≤ ·) values :=
      List.eq_of_perm_of_sorted
        (hperm'.trans (List.perm_insertionSort (· ≤ ·) values).symm) hsort'
        (List.sorted_insertionSort (· ≤ ·) values)
    have hlen' : (List.insertionSort (· ≤ ·) values).length = values.length :=
      (List.perm_insertionSort (· ≤ ·) values).length_eq
    rw [visualize.weighted_median, if_neg hv,
      if_pos (show (none : Option (List ℚ)).getD [] = [] from rfl)]
    dsimp only
    rw [hlen', ← hL, if_neg (by omega)]
  · intro values ws hv hlen hpos
    have hwne : ws ≠ [] := by
      intro h
      subst h
      simp only [List.length_nil] at hlen
      exact hv (List.length_eq_zero.mp hlen.symm)
    have hsnd : (values.zip ws).map Prod.snd = ws :=
      List.map_snd_zip values ws (by omega)
    have hW : 0 < ((values.zip ws).map Prod.snd).sum := by
      rw [hsnd]
      exact List.sum_pos ws hpos hwne
    exact weighted_median_crossing values ws hv hlen
      (fun w hw => le_of_lt (hpos w hw)) hW

/-- Witness for C5: on `[1, 2, 4, 8]` the unweighted median interpolates to 3,
while the uniformly weighted median snaps to the member value 2. -/
theorem C5_witness :
    visualize.weighted_median [1, 2, 4, 8] none = 3
    ∧ visualize.weighted_median [1, 2, 4, 8] (some [1, 1, 1, 1])
        ∈ ([1, 2, 4, 8] : List ℚ) := by
  have h1 := C5_weighted_median_modes.1 [1, 2, 4, 8] (by simp) (by norm_num)
    [1, 2, 4, 8] (List.Perm.refl _) (by norm_num [List.sorted_cons])
  have h2 := (C5_weighted_median_modes.2 [1, 2, 4, 8] [1, 1, 1, 1] (by simp)
    (by norm_num) (by intro w hw; simp at hw; subst hw; norm_num)).1
  refine ⟨?_, h2⟩
  rw [h1]
  norm_num

/-- Zipping with a same-length constant weight list pairs every value with the
constant. -/
lemma zip_replicate_const (c : ℚ) :
    ∀ values : List ℚ,
      values.zip (List.replicate values.length c) = values.map fun v => (v, c) := by
  intro values
  induction values with
  | nil => rfl
  | cons a vs ih => simp [List.replicate_succ, List.zip_cons_cons, ih]

/-- Cumulative weight under uniform weights counts the values below the
threshold. -/
lemma cumW_uniform (c x : ℚ) :
    ∀ values : List ℚ,
      cumW (values.map fun v => (v, c)) x
        = c * (((values.filter fun v => decide (v ≤ x)).length : ℕ) : ℚ) := by
  intro values
  induction values with
  | nil => simp [cumW]
  | cons a vs ih =>
    rw [List.map_cons, cumW_cons]
    by_cases h : a ≤ x
    · rw [if_pos h, ih, show ((a :: vs).filter fun v => decide (v ≤ x))
          = a :: (vs.filter fun v => decide (v ≤ x)) from by simp [List.filter_cons, h]]
      simp only [List.length_cons]
      push_cast
      ring
    · rw [if_neg h, ih, show ((a :: vs).filter fun v => decide (v ≤ x))
          = vs.filter fun v => decide (v ≤ x) from by simp [List.filter_cons, h]]

/-- In a sorted list, at least `k + 1` values are at most the `k`-th one. -/
lemma sorted_filter_le_ge (L : List ℚ) (hL : L.Sorted (· ≤ ·)) :
    ∀ k : ℕ, k < L.length →
      k + 1 ≤ (L.filter fun v => decide (v ≤ L.getD k 0)).length := by
  induction L with
  | nil => intro k hk; simp at hk
  | cons a tl ih =>
    intro k hk
    cases k with
    | zero =>
      rw [List.getD_cons_zero, show ((a :: tl).filter fun v => decide (v ≤ a))
          = a :: (tl.filter fun v => decide (v ≤ a)) from by simp [List.filter_cons]]
      simp
    | succ k =>
      have hk' : k < tl.length := by simpa using hk
      have htl := ih (List.sorted_cons.mp hL).2 k hk'
      have hmem2 : tl.getD k 0 ∈ tl := by
        rw [List.getD_eq_getElem _ _ hk']
        exact List.getElem_mem _
      have hale : a ≤ tl.getD k 0 := (List.sorted_cons.mp hL).1 _ hmem2
      rw [List.getD_cons_succ, show ((a :: tl).filter fun v => decide (v ≤ tl.getD k 0))
          = a :: (tl.filter fun v => decide (v ≤ tl.getD k 0)) from by
            simp only [List.filter_cons]
            rw [decide_eq_true hale]
            simp]
      simp only [List.length_cons]
      omega

/-- In a sorted list, at most `k` values are at most a threshold strictly
below the `k`-th one. -/
lemma sorted_filter_le_le (L : List ℚ) (hL : L.Sorted (· ≤ ·)) :
    ∀ (k : ℕ) (x : ℚ), k < L.length → x < L.getD k 0 →
      (L.filter fun v => decide (v ≤ x)).length ≤ k := by
  induction L with
  | nil => intro k x hk; simp at hk
  | cons a tl ih =>
    intro k x hk hx
    cases k with
    | zero =>
      rw [List.getD_cons_zero] at hx
      have hfil : (a :: tl).filter (fun v => decide (v ≤ x)) = [] := by
        rw [List.filter_eq_nil_iff]
        intro v hv
        simp only [decide_eq_true_eq]
        rcases List.mem_cons.mp hv with rfl | hv2
        · exact not_le.mpr hx
        · have := (List.sorted_cons.mp hL).1 v hv2
          intro hle
          linarith
      rw [hfil]
      simp
    | succ k =>
      have hk' : k < tl.length := by simpa using hk
      rw [List.getD_cons_succ] at hx
      have htl := ih (List.sorted_cons.mp hL).2 k x hk' hx
      by_cases h : a ≤ x
      · rw [show ((a :: tl).filter fun v => decide (v ≤ x))
            = a :: (tl.filter fun v => decide (v ≤ x)) from by simp [List.filter_cons, h]]
        simp only [List.length_cons]
        omega
      · rw [show ((a :: tl).filter fun v => decide (v ≤ x))
            = tl.filter fun v => decide (v ≤ x) from by simp [List.filter_cons, h]]
        omega

/-- Claim C8: `_weighted_mean` with absent weights is the arithmetic mean,
and for odd-length lists `_weighted_median` with uniform positive weights
equals the classic (middle-element) unweighted median. -/
theorem C8_unweighted_fallbacks :
    (∀ values : List ℚ, values ≠ [] →
      visualize.weighted_mean values none = values.sum / (values.length : ℚ))
    ∧ (∀ (values : List ℚ) (c : ℚ), values ≠ [] → values.length % 2 = 1 → 0 < c →
      visualize.weighted_median values (some (List.replicate values.length c))
        = visualize.weighted_median values none) := by
  constructor
  · intro values hv
    rw [visualize.weighted_mean, if_neg hv,
      if_pos (show (none : Option (List ℚ)).getD [] = [] from rfl)]
  · intro values c hv hodd hc
    obtain ⟨u, hu⟩ : ∃ u, values.length = 2 * u + 1 := ⟨values.length / 2, by omega⟩
    have hlen' : (List.insertionSort (· ≤ ·) values).length = values.length :=
      (List.perm_insertionSort (· ≤ ·) values).length_eq
    have hperm := List.perm_insertionSort (· ≤ ·) values
    have hsortL := List.sorted_insertionSort (· ≤ ·) values
    have hclassic : visualize.weighted_median values none
        = (List.insertionSort (· ≤ ·) values).getD (values.length / 2) 0 := by
      rw [visualize.weighted_median, if_neg hv,
        if_pos (show (none : Option (List ℚ)).getD [] = [] from rfl)]
      dsimp only
      rw [hlen', if_pos hodd]
    set L := List.insertionSort (· ≤ ·) values with hLdef
    set m := L.getD (values.length / 2) 0 with hmdef
    have hmidlt : values.length / 2 < L.length := by rw [hlen']; omega
    have hmmem : m ∈ values := by
      apply hperm.mem_iff.mp
      rw [hmdef, List.getD_eq_getElem _ _ hmidlt]
      exact List.getElem_mem _
    have hWsum : ((values.zip (List.replicate values.length c)).map Prod.snd).sum
        = (values.length : ℚ) * c := by
      rw [zip_replicate_const]
      have hmapsnd : ∀ l : List ℚ, (l.map fun v => ((v, c) : ℚ × ℚ)).map Prod.snd
          = List.replicate l.length c := by
        intro l
        induction l with
        | nil => rfl
        | cons a tl ih => simp [List.replicate_succ, ih]
      rw [hmapsnd values, List.sum_replicate, nsmul_eq_mul]
    have hW : 0 < ((values.zip (List.replicate values.length c)).map Prod.snd).sum := by
      rw [hWsum]
      have hpos0 : 0 < values.length := List.length_pos.mpr hv
      have hposq : (0 : ℚ) < (values.length : ℚ) := by exact_mod_cast hpos0
      exact mul_pos hposq hc
    obtain ⟨hmem, hb, hc2⟩ := weighted_median_crossing values
      (List.replicate values.length c) hv (by simp)
      (fun w hw => le_of_lt (by rw [List.eq_of_mem_replicate hw]; exact hc)) hW
    have hcum : ∀ x : ℚ, cumW (values.zip (List.replicate values.length c)) x
        = c * (((L.filter fun v => decide (v ≤ x)).length : ℕ) : ℚ) := by
      intro x
      rw [zip_replicate_const, cumW_uniform]
      congr 2
      exact ((hperm.filter _).length_eq).symm
    have hdiv : values.length / 2 = u := by omega
    have huq : ((values.length : ℕ) : ℚ) = 2 * (u : ℚ) + 1 := by
      rw [hu]
      push_cast
      ring
    rw [hclassic]
    have hrm : ¬ m < visualize.weighted_median values
        (some (List.replicate values.length c)) := by
      intro hlt
      have hcx := hc2 m hmmem hlt
      rw [hcum, hWsum, huq] at hcx
      have hge := sorted_filter_le_ge L hsortL (values.length / 2) hmidlt
      rw [← hmdef, hdiv] at hge
      have hcast : ((u : ℚ) + 1)
          ≤ (((L.filter fun v => decide (v ≤ m)).length : ℕ) : ℚ) := by
        exact_mod_cast hge
      nlinarith
    have hmr : ¬ visualize.weighted_median values
        (some (List.replicate values.length c)) < m := by
      intro hlt
      have hle := sorted_filter_le_le L hsortL (values.length / 2)
        (visualize.weighted_median values (some (List.replicate values.length c)))
        hmidlt (by rw [← hmdef]; exact hlt)
      rw [hdiv] at hle
      have hcr := hb
      rw [hcum, hWsum, huq] at hcr
      have hcast : (((L.filter fun v => decide (v ≤ visualize.weighted_median values
            (some (List.replicate values.length c)))).length : ℕ) : ℚ)
          ≤ (u : ℚ) := by
        exact_mod_cast hle
      nlinarith
    exact le_antisymm (not_lt.mp hrm) (not_lt.mp hmr)

/-- Witness for C8: the mean fallback and the uniform-weight median on
`[3, 1, 2]` (classic median 2). -/
theorem C8_witness :
    visualize.weighted_mean [3, 1, 2] none = ((3 : ℚ) + 1 + 2) / 3
    ∧ visualize.weighted_median [3, 1, 2] (some [5, 5, 5])
        = visualize.weighted_median [3, 1, 2] none := by
  constructor
  · have h := C8_unweighted_fallbacks.1 [3, 1, 2] (by simp)
    rw [h]
    norm_num
  · have h := C8_unweighted_fallbacks.2 [3, 1, 2] 5 (by simp) (by norm_num) (by norm_num)
    simpa using h

/-- The weight accumulated in bin `j` by `_histogram_mode`: sum of the weights
of the pairs whose value falls in bin `j`. -/
def visualize.hist_wcount (values : List ℚ) (weights : Option (List ℚ))
    (bins : ℕ) (j : ℕ) : ℚ :=
  (((visualize.hist_pairs values weights).filter fun p =>
      decide (visualize.bin_index (visualize.pymin values)
        ((visualize.pymax values - visualize.pymin values) / (bins : ℚ)) bins p.1
        = j)).map Prod.snd).sum

lemma foldl_min_le : ∀ (vs : List ℚ) (a : ℚ), vs.foldl min a ≤ a := by
  intro vs
  induction vs with
  | nil => intro a; simp
  | cons x xs ih =>
    intro a
    calc xs.foldl min (min a x) ≤ min a x := ih _
    _ ≤ a := min_le_left _ _

lemma le_foldl_max : ∀ (vs : List ℚ) (a : ℚ), a ≤ vs.foldl max a := by
  intro vs
  induction vs with
  | nil => intro a; simp
  | cons x xs ih =>
    intro a
    calc a ≤ max a x := le_max_left _ _
    _ ≤ xs.foldl max (max a x) := ih _

lemma pymin_le_pymax {values : List ℚ} (hv : values ≠ []) :
    visualize.pymin values ≤ visualize.pymax values := by
  rcases values with - | ⟨v0, vs⟩
  · exact absurd rfl hv
  calc visualize.pymin (v0 :: vs) = vs.foldl min v0 := rfl
  _ ≤ v0 := foldl_min_le vs v0
  _ ≤ vs.foldl max v0 := le_foldl_max vs v0
  _ = visualize.pymax (v0 :: vs) := rfl

/-- Every bin index is below the bin count. -/
lemma bin_index_lt (vmin width : ℚ) {bins : ℕ} (hb : 0 < bins) (v : ℚ) :
    visualize.bin_index vmin width bins v < bins := by
  rw [visualize.bin_index]
  split_ifs with h
  · omega
  · omega

/-- The exact maximum lands in the last bin. -/
lemma bin_index_max (vmin vmax : ℚ) {bins : ℕ} (hb : 0 < bins) (hlt : vmin < vmax) :
    visualize.bin_index vmin ((vmax - vmin) / (bins : ℚ)) bins vmax = bins - 1 := by
  have hsub : vmax - vmin ≠ 0 := by linarith
  have hbq : ((bins : ℕ) : ℚ) ≠ 0 := by
    simp only [ne_eq, Nat.cast_eq_zero]
    omega
  have hw : (vmax - vmin) / ((vmax - vmin) / (bins : ℚ)) = (bins : ℚ) := by
    field_simp
  rw [visualize.bin_index]
  rw [hw, Int.floor_natCast, Int.toNat_natCast, if_pos le_rfl]

/-- The `counts[idx] += w` fold of `_histogram_mode` computes, at every index,
the initial value plus the filtered weight sum for that bin. -/
lemma accum_getD (bidx : ℚ → ℕ) :
    ∀ (ps : List (ℚ × ℚ)) (cs : List ℚ) (j : ℕ), j < cs.length →
      (∀ p ∈ ps, bidx p.1 < cs.length) →
      (ps.foldl (fun cs p => cs.set (bidx p.1) (cs.getD (bidx p.1) 0 + p.2)) cs).getD j 0
        = cs.getD j 0 + ((ps.filter fun p => decide (bidx p.1 = j)).map Prod.snd).sum := by
  intro ps
  induction ps with
  | nil => intro cs j hj _; simp
  | cons p ps ih =>
    intro cs j hj hb
    have hi : bidx p.1 < cs.length := hb p (by simp)
    rw [List.foldl_cons]
    have hlen : (cs.set (bidx p.1) (cs.getD (bidx p.1) 0 + p.2)).length = cs.length :=
      List.length_set cs _ _
    rw [ih (cs.set (bidx p.1) (cs.getD (bidx p.1) 0 + p.2)) j (by rw [hlen]; exact hj)
      (fun q hq => by rw [hlen]; exact hb q (List.mem_cons_of_mem _ hq))]
    by_cases hij : bidx p.1 = j
    · rw [show ((p :: ps).filter fun q => decide (bidx q.1 = j))
          = p :: (ps.filter fun q => decide (bidx q.1 = j)) from by
            simp only [List.filter_cons]
            rw [decide_eq_true hij]
            simp]
      rw [List.getD_eq_getElem _ _ (show j < (cs.set (bidx p.1)
          (cs.getD (bidx p.1) 0 + p.2)).length from by rw [hlen]; exact hj),
        List.getElem_set, if_pos hij]
      simp only [List.map_cons, List.sum_cons]
      subst hij
      ring
    · rw [show ((p :: ps).filter fun q => decide (bidx q.1 = j))
          = ps.filter fun q => decide (bidx q.1 = j) from by
            simp only [List.filter_cons]
            rw [decide_eq_false hij]
            simp]
      rw [List.getD_eq_getElem _ _ (show j < (cs.set (bidx p.1)
          (cs.getD (bidx p.1) 0 + p.2)).length from by rw [hlen]; exact hj),
        List.getElem_set, if_neg hij, ← List.getD_eq_getElem _ _ hj]

/-- Python `max(range(bins), key=...)` (a fold replacing the best index only
on a strictly larger key) returns the LEAST index attaining the maximal key. -/
lemma pymax_key_spec (key : ℕ → ℚ) :
    ∀ n : ℕ, 0 < n →
      ((List.range n).foldl (fun best i => if key best < key i then i else best) 0) < n
      ∧ (∀ j, j < n → key j ≤ key ((List.range n).foldl
          (fun best i => if key best < key i then i else best) 0))
      ∧ (∀ j, j < (List.range n).foldl
            (fun best i => if key best < key i then i else best) 0 →
          key j < key ((List.range n).foldl
            (fun best i => if key best < key i then i else best) 0)) := by
  intro n
  induction n with
  | zero => intro h; omega
  | succ n ih =>
    intro _
    by_cases hn : 0 < n
    · obtain ⟨ih1, ih2, ih3⟩ := ih hn
      rw [List.range_succ, List.foldl_append, List.foldl_cons, List.foldl_nil]
      by_cases hc : key ((List.range n).foldl
          (fun best i => if key best < key i then i else best) 0) < key n
      · rw [if_pos hc]
        refine ⟨by omega, ?_, ?_⟩
        · intro j hj
          rcases Nat.lt_succ_iff_lt_or_eq.mp hj with hj | rfl
          · exact le_of_lt (lt_of_le_of_lt (ih2 j hj) hc)
          · exact le_rfl
        · intro j hj
          exact lt_of_le_of_lt (ih2 j (by omega)) hc
      · rw [if_neg hc]
        refine ⟨by omega, ?_, ih3⟩
        intro j hj
        rcases Nat.lt_succ_iff_lt_or_eq.mp hj with hj | rfl
        · exact ih2 j hj
        · exact not_lt.mp hc
    · have hn0 : n = 0 := by omega
      subst hn0
      rw [show List.range 1 = [0] from rfl, List.foldl_cons, List.foldl_nil,
        if_neg (lt_irrefl _)]
      refine ⟨by omega, ?_, by omega⟩
      intro j hj
      have : j = 0 := by omega
      subst this
      exact le_rfl

/-- Claim C7: with a nonempty value list, distinct min and max and a positive
bin count, `_histogram_mode` builds equal-width bins over `[min, max]`,
accumulates weighted counts (unit counts when weights are absent — both are
`hist_pairs`), lets the last bin absorb the exact maximum, and returns the
midpoint of the bin with the greatest accumulated weight, ties broken by the
lowest bin index. -/
theorem C7_histogram_mode_spec (values : List ℚ) (weights : Option (List ℚ))
    (bins : ℕ) (hv : values ≠ []) (hb : 0 < bins)
    (hne : visualize.pymin values ≠ visualize.pymax values) :
    ∃ i0 : ℕ, i0 < bins
      ∧ visualize.histogram_mode values weights bins
          = visualize.pymin values + ((i0 : ℚ) + 1 / 2)
            * ((visualize.pymax values - visualize.pymin values) / (bins : ℚ))
      ∧ (∀ j : ℕ, j < bins → visualize.hist_wcount values weights bins j
          ≤ visualize.hist_wcount values weights bins i0)
      ∧ (∀ j : ℕ, j < i0 → visualize.hist_wcount values weights bins j
          < visualize.hist_wcount values weights bins i0)
      ∧ visualize.bin_index (visualize.pymin values)
          ((visualize.pymax values - visualize.pymin values) / (bins : ℚ)) bins
          (visualize.pymax values) = bins - 1 := by
  have hlt : visualize.pymin values < visualize.pymax values :=
    lt_of_le_of_ne (pymin_le_pymax hv) hne
  have hbq : (0 : ℚ) < (bins : ℚ) := by exact_mod_cast hb
  have hwpos : 0 < (visualize.pymax values - visualize.pymin values) / (bins : ℚ) :=
    div_pos (by linarith) hbq
  rw [visualize.histogram_mode, if_neg hv, if_neg hne, if_neg (not_le.mpr hwpos)]
  set counts := (visualize.hist_pairs values weights).foldl (fun cs p =>
    cs.set (visualize.bin_index (visualize.pymin values)
        ((visualize.pymax values - visualize.pymin values) / (bins : ℚ)) bins p.1)
      (cs.getD (visualize.bin_index (visualize.pymin values)
        ((visualize.pymax values - visualize.pymin values) / (bins : ℚ)) bins p.1) 0
        + p.2)) (List.replicate bins 0) with hcounts
  obtain ⟨h1, h2, h3⟩ := pymax_key_spec (fun i => counts.getD i 0) bins hb
  have hrep : ∀ j : ℕ, (List.replicate bins (0 : ℚ)).getD j 0 = 0 := by
    intro j
    rw [List.getD_eq_getElem?_getD, List.getElem?_replicate]
    split_ifs <;> rfl
  have hkey : ∀ j : ℕ, j < bins →
      counts.getD j 0 = visualize.hist_wcount values weights bins j := by
    intro j hj
    rw [hcounts, accum_getD (visualize.bin_index (visualize.pymin values)
        ((visualize.pymax values - visualize.pymin values) / (bins : ℚ)) bins)
      (visualize.hist_pairs values weights) (List.replicate bins 0) j
      (by rw [List.length_replicate]; exact hj)
      (fun p hp => by rw [List.length_replicate]; exact bin_index_lt _ _ hb p.1),
      hrep, zero_add]
    rfl
  refine ⟨_, h1, rfl, ?_, ?_, bin_index_max _ _ hb hlt⟩
  · intro j hj
    rw [← hkey j hj, ← hkey _ h1]
    exact h2 j hj
  · intro j hj
    rw [← hkey j (lt_trans hj h1), ← hkey _ h1]
    exact h3 j hj

/-- Witness for C7: `[0, 1, 1]`, no weights, 2 bins — min 0, max 1, distinct. -/
theorem C7_witness :
    (([0, 1, 1] : List ℚ) ≠ [] ∧ 0 < 2
      ∧ visualize.pymin [0, 1, 1] ≠ visualize.pymax [0, 1, 1])
    ∧ ∃ i0 : ℕ, i0 < 2
      ∧ visualize.histogram_mode [0, 1, 1] none 2
          = visualize.pymin [0, 1, 1] + ((i0 : ℚ) + 1 / 2)
            * ((visualize.pymax [0, 1, 1] - visualize.pymin [0, 1, 1]) / (2 : ℚ))
      ∧ (∀ j : ℕ, j < 2 → visualize.hist_wcount [0, 1, 1] none 2 j
          ≤ visualize.hist_wcount [0, 1, 1] none 2 i0)
      ∧ (∀ j : ℕ, j < i0 → visualize.hist_wcount [0, 1, 1] none 2 j
          < visualize.hist_wcount [0, 1, 1] none 2 i0)
      ∧ visualize.bin_index (visualize.pymin [0, 1, 1])
          ((visualize.pymax [0, 1, 1] - visualize.pymin [0, 1, 1]) / (2 : ℚ)) 2
          (visualize.pymax [0, 1, 1]) = 2 - 1 := by
  have hne : visualize.pymin [0, 1, 1] ≠ visualize.pymax [0, 1, 1] := by
    simp only [visualize.pymin, visualize.pymax, List.foldl_cons, List.foldl_nil]
    norm_num
  exact ⟨⟨by simp, by norm_num, hne⟩,
    C7_histogram_mode_spec [0, 1, 1] none 2 (by simp) (by norm_num) hne⟩
